import Mathlib

/-!
Verification development for the proglog segmented commit-log engine
(`internal/log`: `index.go`, `segment.go`, `log.go`).  The Go code is shallowly
embedded: byte buffers are `List Nat` (each element a byte value), machine
integers are `Nat` with explicit `% 2 ^ w` where the Go code truncates
(`uint32(...)` casts, `uint64` wrap-around), and fallible operations return
`Option` or `Except`.  File-system contents are passed explicitly.
-/

namespace Proglog

/-- Numeric range of a `uint32`. -/
def U32 : Nat := 2 ^ 32

/-- Numeric range of a `uint64`. -/
def U64 : Nat := 2 ^ 64

/-- Big-endian byte encoding of `x % 256 ^ w` in exactly `w` bytes, most
significant byte first (Go `encoding/binary` BigEndian `PutUint32`/`PutUint64`). -/
def beBytes : Nat → Nat → List Nat
  | 0, _ => []
  | w + 1, x => beBytes w (x / 256) ++ [x % 256]

/-- Big-endian byte decoding (Go `encoding/binary` BigEndian `Uint32`/`Uint64`). -/
def beVal (bs : List Nat) : Nat := bs.foldl (fun a b => a * 256 + b) 0

/-- Read `n` bytes starting at byte position `pos`; `none` when the slice would
run past the end of the buffer (a short read / EOF in Go). -/
def readBytes (bs : List Nat) (pos n : Nat) : Option (List Nat) :=
  if pos + n ≤ bs.length then some ((bs.drop pos).take n) else none

/-- Overwrite the bytes of `bs` starting at position `pos` with `ns` (Go slice
assignment into an mmap); callers only use it with `pos + ns.length` in bounds. -/
def writeBytes (bs : List Nat) (pos : Nat) (ns : List Nat) : List Nat :=
  bs.take pos ++ ns ++ bs.drop (pos + ns.length)

/-- Go `uint64` subtraction `a - b` (wraps modulo `2 ^ 64`) for `a b < 2 ^ 64`. -/
def u64sub (a b : Nat) : Nat := (a + U64 - b % U64) % U64

/-- Reinterpretation of a `uint64` value as an `int64` (Go `int64(x)` cast). -/
def toInt64 (x : Nat) : Int :=
  if x % U64 < 2 ^ 63 then ((x % U64 : Nat) : Int) else ((x % U64 : Nat) : Int) - (U64 : Int)

/-- Segment sizing options (`Config.Segment` in the source). -/
structure SegmentConfig where
  maxStoreBytes : Nat
  maxIndexBytes : Nat
  initialOffset : Nat
deriving DecidableEq, Repr

/-- The log configuration.  The source `Config` also carries Raft settings;
only the `Segment` part is consumed by the storage engine modelled here. -/
structure Config where
  segment : SegmentConfig
deriving DecidableEq, Repr

/-- A log record.  The source `api.Record` is a protobuf message with `value`
and `offset` fields (plus reserved `term`/`type` fields unused by the storage
engine). -/
structure Record where
  offset : Nat
  value : List Nat
deriving DecidableEq, Repr

/-- Modelled from the spec: record serialization (spec section 6.2).  The source
calls an external protobuf library (`proto.Marshal`) that is not part of this
repository; the spec requires a canonical encoding of the `offset : u64` and
`value : bytes` fields.  We use the record's offset in 8 big-endian bytes
followed by the value bytes, which is injective for `offset < 2 ^ 64` given the
store's length framing. -/
def marshalRecord (r : Record) : List Nat := beBytes 8 r.offset ++ r.value

/-- Modelled from the spec: inverse of `marshalRecord` (`proto.Unmarshal`). -/
def unmarshalRecord (p : List Nat) : Record :=
  { offset := beVal (p.take 8), value := p.drop 8 }

/-- The width of the big-endian length header that frames each store record. -/
def lenWidth : Nat := 8

/-- Modelled from the spec: the store (spec section 4.1; `store.go` is not in
the provided sources).  A length-prefixed append-only byte file; `size` is the
accepted byte count (buffered writes count, and the buffer is flushed before
every read, so `bytes` holds all accepted data). -/
structure Store where
  bytes : List Nat
  size : Nat
deriving DecidableEq, Repr

/-- Modelled from the spec: opening a store over an existing file. -/
def newStore (file : List Nat) : Store := { bytes := file, size := file.length }

/-- Modelled from the spec: `store.Append(p)` returns the number of bytes
written and the position where the record begins, then advances `size` by
`lenWidth + p.length`.  There is no capacity check. -/
def Store.append (s : Store) (p : List Nat) : Nat × Nat × Store :=
  (lenWidth + p.length, s.size,
    { bytes := s.bytes ++ beBytes lenWidth p.length ++ p,
      size := s.size + lenWidth + p.length })

/-- Modelled from the spec: `store.Read(pos)` reads the 8-byte length header at
`pos` and then that many payload bytes. -/
def Store.read (s : Store) (pos : Nat) : Option (List Nat) :=
  (readBytes s.bytes pos lenWidth).bind fun lb =>
    readBytes s.bytes (pos + lenWidth) (beVal lb)

/-- Width of one index entry: 4 bytes relative offset + 8 bytes position. -/
def entWidth : Nat := 12

/-- The memory-mapped index (`index.go`).  `mmap` is the mapped file contents
(the file is pre-truncated to `MaxIndexBytes`) and `size` is the logical number
of occupied bytes. -/
structure Index where
  mmap : List Nat
  size : Nat
deriving DecidableEq, Repr

/-- `newIndex`: remember the file's current size, truncate the file to
`MaxIndexBytes` (extension zero-fills, per POSIX truncate), and mmap it. -/
def newIndex (file : List Nat) (c : Config) : Index :=
  { size := file.length,
    mmap := file.take c.segment.maxIndexBytes ++
      List.replicate (c.segment.maxIndexBytes - file.length) 0 }

/-- `index.isMaxed()`: no room left for another 12-byte entry. -/
def Index.isMaxed (i : Index) : Bool := decide (i.mmap.length < i.size + entWidth)

/-- `index.Read(in)`: `io.EOF` (here `none`) on an empty index; `in = -1` asks
for the last occupied entry; otherwise `in` is truncated by the `uint32(in)`
cast.  `none` also models the panic that Go would raise if the computed slice
`mmap[pos : pos+entWidth]` were out of the mapped range (impossible while
`size ≤ mmap.length`, which holds for every index the code builds). -/
def Index.read (i : Index) (input : Int) : Option (Nat × Nat) :=
  if i.size = 0 then none
  else
    let out : Nat :=
      if input = -1 then ((i.size / entWidth + (U64 - 1)) % U64) % U32
      else (input % (U32 : Int)).toNat
    let pos := out * entWidth
    if i.size < pos + entWidth then none
    else
      (readBytes i.mmap pos 4).bind fun ob =>
        (readBytes i.mmap (pos + 4) 8).bind fun pb => some (beVal ob, beVal pb)

/-- `index.Write(off, pos)`: `io.EOF` (here `none`) when the index is maxed,
otherwise encode 4 bytes of `off` and 8 bytes of `pos` at byte position `size`
and advance `size` by 12. -/
def Index.write (i : Index) (off pos : Nat) : Option Index :=
  if i.isMaxed then none
  else some
    { mmap := writeBytes i.mmap i.size (beBytes 4 off ++ beBytes 8 pos),
      size := i.size + entWidth }

/-- Decoded entry at slot `j` of an index (a specification helper used to state
what `Index.read`/`Index.write` produce). -/
def Index.entryAt (i : Index) (j : Nat) : Option (Nat × Nat) :=
  (readBytes i.mmap (j * entWidth) 4).bind fun ob =>
    (readBytes i.mmap (j * entWidth + 4) 8).bind fun pb => some (beVal ob, beVal pb)

/-- A segment (`segment.go`): one store and one index under a base offset. -/
structure Segment where
  store : Store
  index : Index
  baseOffset : Nat
  nextOffset : Nat
  config : Config
deriving DecidableEq, Repr

/-- The pair of on-disk files backing one segment
(`<baseOffset>.store`, `<baseOffset>.index`). -/
structure SegFiles where
  storeFile : List Nat
  indexFile : List Nat
deriving DecidableEq, Repr

/-- `newSegment(dir, baseOffset, c)`: open the two files, then set `nextOffset`
from the last index entry (`baseOffset` when the index is empty, otherwise
`baseOffset + uint64(off) + 1`, a wrapping `uint64` sum). -/
def newSegment (files : SegFiles) (baseOffset : Nat) (c : Config) : Segment :=
  let st := newStore files.storeFile
  let idx := newIndex files.indexFile c
  let next :=
    match idx.read (-1) with
    | none => baseOffset
    | some op => (baseOffset + op.1 + 1) % U64
  { store := st, index := idx, baseOffset := baseOffset, nextOffset := next, config := c }

/-- `segment.Append(record)`: set the record's offset to `nextOffset`, marshal
it, append to the store, then write the index entry
`(uint32(nextOffset - baseOffset), pos)`.  The middle component is the state of
the caller's record, which Go mutates through the pointer.  On index failure
the error (`none`) is returned with `nextOffset` and the index unchanged, but
the store keeps the appended bytes (the source's documented wart). -/
def Segment.append (s : Segment) (record : Record) : Segment × Record × Option Nat :=
  let cur := s.nextOffset
  let record' := { record with offset := cur }
  let p := marshalRecord record'
  let apRes := s.store.append p
  let pos := apRes.2.1
  let store' := apRes.2.2
  match s.index.write (u64sub s.nextOffset s.baseOffset % U32) pos with
  | none => ({ s with store := store' }, record', none)
  | some index' =>
    ({ s with store := store', index := index', nextOffset := (s.nextOffset + 1) % U64 },
      record', some cur)

/-- `segment.Read(off)`: look up `index.Read(int64(off - baseOffset))` (both
subtraction and cast with Go wrap-around), then read the store at the entry's
position and unmarshal. -/
def Segment.read (s : Segment) (off : Nat) : Option Record :=
  (s.index.read (toInt64 (u64sub off s.baseOffset))).bind fun op =>
    (s.store.read op.2).bind fun p => some (unmarshalRecord p)

/-- `segment.IsMaxed()`: store at or past `MaxStoreBytes`, or index at or past
`MaxIndexBytes`, or no room in the index for another entry. -/
def Segment.isMaxed (s : Segment) : Bool :=
  decide (s.config.segment.maxStoreBytes ≤ s.store.size) ||
    decide (s.config.segment.maxIndexBytes ≤ s.index.size) ||
    s.index.isMaxed

/-- `segment.Close()` as it affects the on-disk files: the store is flushed
(its bytes are the file) and the index file is truncated back to its logical
size. -/
def Segment.closeFiles (s : Segment) : SegFiles :=
  { storeFile := s.store.bytes, indexFile := s.index.mmap.take s.index.size }

/-- Error kinds surfaced by `Log.Read` (`api.ErrOffsetOutOfRange` carries the
requested offset; every other failure the engine can propagate — `io.EOF` from
the index or a short store read — is collapsed into `eof`). -/
inductive LogErr where
  | offsetOutOfRange (off : Nat)
  | eof
deriving DecidableEq, Repr

/-- Decidable equality for `Except` results, so that concrete read outcomes can
be checked by evaluation. -/
instance {ε α : Type} [DecidableEq ε] [DecidableEq α] : DecidableEq (Except ε α) := fun a b =>
  match a, b with
  | .error x, .error y =>
    if h : x = y then isTrue (congrArg Except.error h)
    else isFalse (fun hc => h (Except.error.inj hc))
  | .ok x, .ok y =>
    if h : x = y then isTrue (congrArg Except.ok h)
    else isFalse (fun hc => h (Except.ok.inj hc))
  | .error _, .ok _ => isFalse (fun hc => Except.noConfusion hc)
  | .ok _, .error _ => isFalse (fun hc => Except.noConfusion hc)

/-- The log (`log.go`): a directory, a config and the ordered segment list.
The source also keeps an `activeSegment` pointer, which always aliases the last
element of `segments` whenever it is dereferenced (every `newSegment` sets it to
the just-appended segment, `Append` is the only reader, and after a `Truncate`
that removed the pointee the segment list is empty, making `Append` panic in
`highestOffset` before touching the pointer), so it is not a separate field
here. -/
structure Log where
  config : Config
  segments : List Segment
deriving DecidableEq, Repr

/-- Insertion step for `sortPairs`. -/
def insertPair (x : Nat × SegFiles) : List (Nat × SegFiles) → List (Nat × SegFiles)
  | [] => [x]
  | y :: ys => if x.1 < y.1 then x :: y :: ys else y :: insertPair x ys

/-- Ascending sort of the parsed base offsets (`sort.Slice` in `Log.setup`),
carrying each base's files along. -/
def sortPairs : List (Nat × SegFiles) → List (Nat × SegFiles)
  | [] => []
  | x :: xs => insertPair x (sortPairs xs)

/-- `Log.setup`: list the directory, parse base offsets from the filenames,
sort ascending, and open one segment per base (the source sees each base twice,
once per file extension, and skips the duplicate; the directory is modelled
with one entry per base).  With no existing segment, create the first one at
`InitialOffset`. -/
def openLog (dir : List (Nat × SegFiles)) (c : Config) : Log :=
  let segs := (sortPairs dir).map fun bf => newSegment bf.2 bf.1 c
  match segs with
  | [] => { config := c, segments := [newSegment ⟨[], []⟩ c.segment.initialOffset c] }
  | _ => { config := c, segments := segs }

/-- Default substitution performed by `NewLog`: a zero `MaxStoreBytes` or
`MaxIndexBytes` becomes 1024. -/
def defaultConfig (c : Config) : Config :=
  { segment :=
    { maxStoreBytes := if c.segment.maxStoreBytes = 0 then 1024 else c.segment.maxStoreBytes,
      maxIndexBytes := if c.segment.maxIndexBytes = 0 then 1024 else c.segment.maxIndexBytes,
      initialOffset := c.segment.initialOffset } }

/-- `NewLog(dir, c)`: substitute defaults, then `setup`. -/
def newLog (dir : List (Nat × SegFiles)) (c : Config) : Log := openLog dir (defaultConfig c)

/-- `Log.highestOffset`: `nextOffset` of the last segment, minus one unless it
is zero.  `none` models the index-out-of-range panic on an empty segment list. -/
def Log.highestOffset? (l : Log) : Option Nat :=
  match l.segments.getLast? with
  | none => none
  | some s => some (if s.nextOffset = 0 then 0 else s.nextOffset - 1)

/-- `Log.LowestOffset`: `baseOffset` of the first segment (`none` models the
panic on an empty segment list). -/
def Log.lowestOffset? (l : Log) : Option Nat := l.segments.head?.map (·.baseOffset)

/-- `Log.Append`: read the highest offset, roll to a new segment at
`highestOffset + 1` when the active segment is maxed, then delegate to the
active segment.  The middle component is the caller's record after the call
(Go mutates it through the pointer).  A rolled segment opens the files
`<highestOffset+1>.store/.index`, which do not exist yet in any state this
development reaches (bases strictly increase), hence fresh empty files. -/
def Log.append (l : Log) (record : Record) : Log × Record × Option Nat :=
  match l.segments.getLast? with
  | none => (l, record, none)
  | some act =>
    let ho := if act.nextOffset = 0 then 0 else act.nextOffset - 1
    if act.isMaxed then
      let ns := newSegment ⟨[], []⟩ ((ho + 1) % U64) l.config
      let apRes := ns.append record
      ({ l with segments := l.segments ++ [apRes.1] }, apRes.2.1, apRes.2.2)
    else
      let apRes := act.append record
      ({ l with segments := l.segments.dropLast ++ [apRes.1] }, apRes.2.1, apRes.2.2)

/-- `Log.Read(off)`: scan the segment list for the first segment with
`baseOffset ≤ off < nextOffset`; fail with `ErrOffsetOutOfRange` if none (the
source re-checks `s.nextOffset <= off`, which is dead code after the scan);
otherwise delegate to the segment. -/
def Log.read (l : Log) (off : Nat) : Except LogErr Record :=
  match l.segments.find? (fun s => decide (s.baseOffset ≤ off) && decide (off < s.nextOffset)) with
  | none => .error (.offsetOutOfRange off)
  | some s =>
    if s.nextOffset ≤ off then .error (.offsetOutOfRange off)
    else
      match s.read off with
      | none => .error .eof
      | some r => .ok r

/-- `Log.Truncate(lowest)`: remove every segment whose `nextOffset` is at most
`lowest + 1` (a wrapping `uint64` sum), keeping the rest in order. -/
def Log.truncate (l : Log) (lowest : Nat) : Log :=
  { l with segments := l.segments.filter fun s => decide ((lowest + 1) % U64 < s.nextOffset) }

/-- `Log.Close` as it affects the on-disk directory: every segment is closed,
leaving one store file and one (logically truncated) index file per base. -/
def Log.closeFiles (l : Log) : List (Nat × SegFiles) :=
  l.segments.map fun s => (s.baseOffset, s.closeFiles)

/-- Append each record of `rs` in order, collecting each call's result. -/
def Log.appendAll (l : Log) (rs : List Record) : Log × List (Option Nat) :=
  match rs with
  | [] => (l, [])
  | r :: rest =>
    let apRes := l.append r
    let rec' := apRes.1.appendAll rest
    (rec'.1, apRes.2.2 :: rec'.2)

/-- Records with offsets `b, b+1, ...` carrying the given values. -/
def recsOf (b : Nat) : List (List Nat) → List Record
  | [] => []
  | v :: vs => ⟨b, v⟩ :: recsOf (b + 1) vs

/-- The store frame of one record: 8-byte big-endian length then the payload. -/
def frameOf (r : Record) : List Nat :=
  beBytes lenWidth (marshalRecord r).length ++ marshalRecord r

/-- Concatenated store frames of a record list. -/
def framesOf : List Record → List Nat
  | [] => []
  | r :: rs => frameOf r ++ framesOf rs

/-- Total framed byte size of a value list (independent of the offsets the
records carry, because the offset encoding is fixed-width). -/
def framesLen : List (List Nat) → Nat
  | [] => 0
  | v :: vs => (lenWidth + lenWidth + v.length) + framesLen vs

/-- Index entry pairs `(relative offset, store position)` for a record list,
starting at relative slot `j` and store position `pos`. -/
def entryPairs (j pos : Nat) : List Record → List (Nat × Nat)
  | [] => []
  | r :: rs => (j, pos) :: entryPairs (j + 1) (pos + (frameOf r).length) rs

/-- Encoded index bytes of a list of entry pairs. -/
def entriesOf : List (Nat × Nat) → List Nat
  | [] => []
  | e :: es => beBytes 4 e.1 ++ beBytes 8 e.2 ++ entriesOf es

/-- The segment state holding exactly the records `recsOf b vs`: the canonical
form of every segment the engine builds by successful appends. -/
def segOf (c : Config) (b : Nat) (vs : List (List Nat)) : Segment :=
  let recs := recsOf b vs
  let bytes := framesOf recs
  { store := { bytes := bytes, size := bytes.length },
    index :=
      { mmap := entriesOf (entryPairs 0 0 recs) ++
          List.replicate (c.segment.maxIndexBytes - entWidth * vs.length) 0,
        size := entWidth * vs.length },
    baseOffset := b,
    nextOffset := b + vs.length,
    config := c }

/-- `SegsRep c b vals segs`: the segment list `segs` holds exactly the values
`vals` as consecutive records starting at offset `b`, each segment in canonical
`segOf` form, each non-final segment non-empty, consecutive base offsets
chaining (`base + count = next base`), and each segment's entries fitting its
configured index capacity.  This is the shape of every segment list reachable
by successful appends from a fresh log. -/
inductive SegsRep (c : Config) : Nat → List (List Nat) → List Segment → Prop
  | last (b : Nat) (vs : List (List Nat))
      (hfit : entWidth * vs.length ≤ c.segment.maxIndexBytes) :
      SegsRep c b vs [segOf c b vs]
  | cons (b : Nat) (vs : List (List Nat)) (rest : List (List Nat)) (segs : List Segment)
      (hne : vs ≠ [])
      (hfit : entWidth * vs.length ≤ c.segment.maxIndexBytes)
      (htail : SegsRep c (b + vs.length) rest segs) :
      SegsRep c b (vs ++ rest) (segOf c b vs :: segs)

theorem beBytes_length (w x : Nat) : (beBytes w x).length = w := by
  induction w generalizing x with
  | zero => rfl
  | succ w ih => simp [beBytes, ih]

theorem beVal_append_single (l : List Nat) (b : Nat) : beVal (l ++ [b]) = beVal l * 256 + b := by
  simp [beVal, List.foldl_append]

theorem beVal_beBytes (w x : Nat) : beVal (beBytes w x) = x % 256 ^ w := by
  induction w generalizing x with
  | zero => simp [beBytes, beVal, Nat.mod_one]
  | succ w ih =>
    rw [beBytes, beVal_append_single, ih, Nat.pow_succ']
    rw [Nat.mod_mul]
    ring

theorem beVal_beBytes_of_lt (w x : Nat) (h : x < 256 ^ w) : beVal (beBytes w x) = x := by
  rw [beVal_beBytes, Nat.mod_eq_of_lt h]

theorem two_pow_64_eq : (256 : Nat) ^ 8 = U64 := by norm_num [U64]

theorem two_pow_32_eq : (256 : Nat) ^ 4 = U32 := by norm_num [U32]

theorem readBytes_full (bs ext : List Nat) : readBytes (bs ++ ext) 0 bs.length = some bs := by
  rw [readBytes, if_pos (by simp)]
  simp [List.take_left]

theorem readBytes_shift (as bs : List Nat) (pos n : Nat) :
    readBytes (as ++ bs) (as.length + pos) n = readBytes bs pos n := by
  by_cases h : pos + n ≤ bs.length
  · rw [readBytes, readBytes, if_pos h, if_pos (by simp; omega), List.drop_append]
  · rw [readBytes, readBytes, if_neg h, if_neg (by simp; omega)]

theorem writeBytes_at_end (e z ns : List Nat) :
    writeBytes (e ++ z) e.length ns = e ++ ns ++ z.drop ns.length := by
  rw [writeBytes, List.take_left, List.drop_append]

theorem writeBytes_length (bs ns : List Nat) (pos : Nat) (h : pos + ns.length ≤ bs.length) :
    (writeBytes bs pos ns).length = bs.length := by
  simp [writeBytes]
  omega

theorem lenWidth_eq : lenWidth = 8 := rfl

theorem entWidth_eq : entWidth = 12 := rfl

theorem marshalRecord_length (r : Record) : (marshalRecord r).length = 8 + r.value.length := by
  simp [marshalRecord, beBytes_length]

theorem frameOf_length (r : Record) : (frameOf r).length = 16 + r.value.length := by
  simp only [frameOf, List.length_append, beBytes_length, marshalRecord_length, lenWidth_eq]
  omega

theorem recsOf_length (b : Nat) (vs : List (List Nat)) : (recsOf b vs).length = vs.length := by
  induction vs generalizing b with
  | nil => rfl
  | cons v vs ih => simp [recsOf, ih]

theorem recsOf_append (b : Nat) (vs ws : List (List Nat)) :
    recsOf b (vs ++ ws) = recsOf b vs ++ recsOf (b + vs.length) ws := by
  induction vs generalizing b with
  | nil => simp [recsOf]
  | cons v vs ih =>
    simp only [List.cons_append, recsOf, List.length_cons, List.append_eq]
    rw [ih]
    rw [show b + 1 + vs.length = b + (vs.length + 1) by omega]

theorem recsOf_getElem (b : Nat) (vs : List (List Nat)) (j : Nat) (hj : j < vs.length) :
    (recsOf b vs).get ⟨j, by rw [recsOf_length]; exact hj⟩ = ⟨b + j, vs.get ⟨j, hj⟩⟩ := by
  induction vs generalizing b j with
  | nil => exact absurd hj (by simp)
  | cons v vs ih =>
    cases j with
    | zero => simp [recsOf]
    | succ j =>
      simp only [recsOf, List.get_cons_succ]
      rw [ih (b + 1) j (by simpa using hj)]
      simp
      omega

theorem framesOf_append (rs₁ rs₂ : List Record) :
    framesOf (rs₁ ++ rs₂) = framesOf rs₁ ++ framesOf rs₂ := by
  induction rs₁ with
  | nil => simp [framesOf]
  | cons r rs ih => simp [framesOf, ih]

theorem framesLen_append (vs ws : List (List Nat)) :
    framesLen (vs ++ ws) = framesLen vs + framesLen ws := by
  induction vs with
  | nil => simp [framesLen]
  | cons v vs ih => simp [framesLen, ih]; omega

theorem framesOf_recsOf_length (b : Nat) (vs : List (List Nat)) :
    (framesOf (recsOf b vs)).length = framesLen vs := by
  induction vs generalizing b with
  | nil => rfl
  | cons v vs ih =>
    simp [recsOf, framesOf, framesLen, frameOf_length, ih, lenWidth_eq]

theorem entriesOf_length (ps : List (Nat × Nat)) : (entriesOf ps).length = entWidth * ps.length := by
  induction ps with
  | nil => rfl
  | cons e es ih => simp [entriesOf, beBytes_length, ih, entWidth]; omega

theorem entryPairs_length (j p : Nat) (rs : List Record) :
    (entryPairs j p rs).length = rs.length := by
  induction rs generalizing j p with
  | nil => rfl
  | cons r rs ih => simp [entryPairs, ih]

theorem entryPairs_append_single (j p : Nat) (rs : List Record) (r : Record) :
    entryPairs j p (rs ++ [r]) =
      entryPairs j p rs ++ [(j + rs.length, p + (framesOf rs).length)] := by
  induction rs generalizing j p with
  | nil => simp [entryPairs, framesOf]
  | cons x rs ih =>
    simp only [List.cons_append, entryPairs, List.length_cons, framesOf,
      List.length_append, List.append_eq]
    rw [ih]
    rw [show j + (rs.length + 1) = j + 1 + rs.length by omega]
    rw [show p + ((frameOf x).length + (framesOf rs).length) =
      p + (frameOf x).length + (framesOf rs).length by omega]

theorem entryPairs_getElem (j0 p0 : Nat) (rs : List Record) (j : Nat) (hj : j < rs.length) :
    (entryPairs j0 p0 rs).get ⟨j, by rw [entryPairs_length]; exact hj⟩ =
      (j0 + j, p0 + (framesOf (rs.take j)).length) := by
  induction rs generalizing j j0 p0 with
  | nil => exact absurd hj (by simp)
  | cons r rs ih =>
    cases j with
    | zero => simp [entryPairs, framesOf]
    | succ j =>
      simp only [entryPairs, List.get_cons_succ]
      rw [ih (j0 + 1) (p0 + (frameOf r).length) j (by simpa using hj)]
      simp only [List.take_succ_cons, framesOf, List.length_append, Prod.mk.injEq]
      exact ⟨by omega, by omega⟩

theorem entriesOf_readBytes (ps : List (Nat × Nat)) (ext : List Nat) (j : Nat)
    (hj : j < ps.length) :
    readBytes (entriesOf ps ++ ext) (entWidth * j) 4 =
        some (beBytes 4 (ps.get ⟨j, hj⟩).1) ∧
      readBytes (entriesOf ps ++ ext) (entWidth * j + 4) 8 =
        some (beBytes 8 (ps.get ⟨j, hj⟩).2) := by
  induction ps generalizing j ext with
  | nil => exact absurd hj (by simp)
  | cons e es ih =>
    cases j with
    | zero =>
      constructor
      · have hfull := readBytes_full (beBytes 4 e.1) (beBytes 8 e.2 ++ (entriesOf es ++ ext))
        rw [beBytes_length] at hfull
        simp only [entriesOf, List.get_cons_zero, Nat.mul_zero, List.append_assoc]
        exact hfull
      · have hsh := readBytes_shift (beBytes 4 e.1) (beBytes 8 e.2 ++ (entriesOf es ++ ext)) 0 8
        have hfull := readBytes_full (beBytes 8 e.2) (entriesOf es ++ ext)
        rw [beBytes_length] at hsh hfull
        simp only [Nat.add_zero] at hsh
        simp only [entriesOf, List.get_cons_zero, Nat.mul_zero, Nat.zero_add,
          List.append_assoc]
        rw [hsh]
        exact hfull
    | succ j =>
      have ihj := ih ext j (by simpa using hj)
      have hlen12 : (beBytes 4 e.1 ++ beBytes 8 e.2).length = entWidth := by
        simp [beBytes_length, entWidth]
      constructor
      · simp only [entriesOf, List.get_cons_succ, List.append_assoc]
        rw [← List.append_assoc (beBytes 4 e.1) (beBytes 8 e.2)]
        rw [show entWidth * (j + 1) =
          (beBytes 4 e.1 ++ beBytes 8 e.2).length + entWidth * j by rw [hlen12]; ring]
        rw [readBytes_shift]
        exact ihj.1
      · simp only [entriesOf, List.get_cons_succ, List.append_assoc]
        rw [← List.append_assoc (beBytes 4 e.1) (beBytes 8 e.2)]
        rw [show entWidth * (j + 1) + 4 =
          (beBytes 4 e.1 ++ beBytes 8 e.2).length + (entWidth * j + 4) by rw [hlen12]; ring]
        rw [readBytes_shift]
        exact ihj.2

theorem framesOf_read (recs : List Record) (ext : List Nat) (j : Nat) (hj : j < recs.length)
    (hlen : (marshalRecord (recs.get ⟨j, hj⟩)).length < U64) (sz : Nat) :
    Store.read ⟨framesOf recs ++ ext, sz⟩ (framesOf (recs.take j)).length =
      some (marshalRecord (recs.get ⟨j, hj⟩)) := by
  induction recs generalizing j ext with
  | nil => exact absurd hj (by simp)
  | cons r rs ih =>
    cases j with
    | zero =>
      have hg : (r :: rs).get ⟨0, hj⟩ = r := rfl
      rw [hg] at hlen ⊢
      rw [show (framesOf (List.take 0 (r :: rs))).length = 0 from rfl]
      have h1 : framesOf (r :: rs) ++ ext =
          beBytes lenWidth (marshalRecord r).length ++
            (marshalRecord r ++ (framesOf rs ++ ext)) := by
        simp [framesOf, frameOf, List.append_assoc]
      have hfullL := readBytes_full (beBytes lenWidth (marshalRecord r).length)
        (marshalRecord r ++ (framesOf rs ++ ext))
      rw [beBytes_length] at hfullL
      have hval : beVal (beBytes lenWidth (marshalRecord r).length) =
          (marshalRecord r).length := by
        apply beVal_beBytes_of_lt
        have h64 : (256 : Nat) ^ lenWidth = U64 := two_pow_64_eq
        rw [h64]
        exact hlen
      have hsh := readBytes_shift (beBytes lenWidth (marshalRecord r).length)
        (marshalRecord r ++ (framesOf rs ++ ext)) 0 (marshalRecord r).length
      rw [beBytes_length, Nat.add_zero] at hsh
      have hfullP := readBytes_full (marshalRecord r) (framesOf rs ++ ext)
      simp only [Store.read]
      rw [h1, hfullL]
      simp only [Option.some_bind]
      rw [hval]
      rw [show (0 : Nat) + lenWidth = lenWidth by omega]
      rw [hsh]
      exact hfullP
    | succ j =>
      simp only [List.take_succ_cons, framesOf, List.length_append, List.get_cons_succ]
        at hlen ⊢
      have ihj := ih ext j (by simpa using hj) hlen
      simp only [Store.read] at ihj ⊢
      rw [List.append_assoc]
      rw [show (frameOf r).length + (framesOf (List.take j rs)).length + lenWidth =
        (frameOf r).length + ((framesOf (List.take j rs)).length + lenWidth) by omega]
      simp only [readBytes_shift]
      exact ihj

theorem entriesOf_append (ps qs : List (Nat × Nat)) :
    entriesOf (ps ++ qs) = entriesOf ps ++ entriesOf qs := by
  induction ps with
  | nil => simp [entriesOf]
  | cons e es ih => simp [entriesOf, ih]

theorem u64sub_add (b k : Nat) (hb : b + k < U64) : u64sub (b + k) b = k := by
  unfold u64sub
  rw [Nat.mod_eq_of_lt (show b < U64 by omega)]
  rw [show b + k + U64 - b = k + U64 by omega]
  rw [Nat.add_mod_right]
  exact Nat.mod_eq_of_lt (by omega)

theorem toInt64_small (x : Nat) (h : x < 2 ^ 63) : toInt64 x = (x : Int) := by
  unfold toInt64
  rw [Nat.mod_eq_of_lt (show x < U64 by unfold U64; omega)]
  rw [if_pos h]

theorem segOf_store (c : Config) (b : Nat) (vs : List (List Nat)) :
    (segOf c b vs).store =
      ⟨framesOf (recsOf b vs), (framesOf (recsOf b vs)).length⟩ := rfl

theorem segOf_index (c : Config) (b : Nat) (vs : List (List Nat)) :
    (segOf c b vs).index =
      ⟨entriesOf (entryPairs 0 0 (recsOf b vs)) ++
        List.replicate (c.segment.maxIndexBytes - entWidth * vs.length) 0,
        entWidth * vs.length⟩ := rfl

theorem segOf_base (c : Config) (b : Nat) (vs : List (List Nat)) :
    (segOf c b vs).baseOffset = b := rfl

theorem segOf_next (c : Config) (b : Nat) (vs : List (List Nat)) :
    (segOf c b vs).nextOffset = b + vs.length := rfl

theorem segOf_config (c : Config) (b : Nat) (vs : List (List Nat)) :
    (segOf c b vs).config = c := rfl

theorem segOf_entries_length (b : Nat) (vs : List (List Nat)) :
    (entriesOf (entryPairs 0 0 (recsOf b vs))).length = entWidth * vs.length := by
  rw [entriesOf_length, entryPairs_length, recsOf_length]

theorem segOf_mmap_length (c : Config) (b : Nat) (vs : List (List Nat))
    (h : entWidth * vs.length ≤ c.segment.maxIndexBytes) :
    (segOf c b vs).index.mmap.length = c.segment.maxIndexBytes := by
  rw [segOf_index]
  simp only [List.length_append, List.length_replicate, segOf_entries_length]
  omega

theorem framesOf_take_le (recs : List Record) (j : Nat) :
    (framesOf (recs.take j)).length ≤ (framesOf recs).length := by
  conv_rhs => rw [← List.take_append_drop j recs]
  rw [framesOf_append, List.length_append]
  omega

theorem framesLen_get_le (vs : List (List Nat)) (j : Nat) (hj : j < vs.length) :
    16 + (vs.get ⟨j, hj⟩).length ≤ framesLen vs := by
  induction vs generalizing j with
  | nil => exact absurd hj (by simp)
  | cons v vs ih =>
    cases j with
    | zero => simp [framesLen, lenWidth_eq]
    | succ j =>
      have := ih j (by simpa using hj)
      simp only [List.get_cons_succ, framesLen]
      omega

theorem unmarshal_marshal (r : Record) (h : r.offset < U64) :
    unmarshalRecord (marshalRecord r) = r := by
  unfold unmarshalRecord marshalRecord
  have h8 : (beBytes 8 r.offset).length = 8 := beBytes_length 8 r.offset
  have ht := List.take_left (beBytes 8 r.offset) r.value
  rw [h8] at ht
  have hd := List.drop_left (beBytes 8 r.offset) r.value
  rw [h8] at hd
  rw [ht, hd]
  rw [beVal_beBytes_of_lt 8 r.offset (by rw [two_pow_64_eq]; exact h)]

theorem segOf_nil (c : Config) (b : Nat) : newSegment ⟨[], []⟩ b c = segOf c b [] := by
  unfold newSegment newStore newIndex segOf
  simp [Index.read, recsOf, framesOf, entriesOf, entryPairs]

theorem segOf_index_read (c : Config) (b : Nat) (vs : List (List Nat)) (j : Nat)
    (hj : j < vs.length) (h32 : vs.length ≤ U32) (hfr : framesLen vs < U64) :
    Index.read (segOf c b vs).index ((j : Nat) : Int) =
      some (j, (framesOf ((recsOf b vs).take j)).length) := by
  have hjlen : j < (entryPairs 0 0 (recsOf b vs)).length := by
    rw [entryPairs_length, recsOf_length]; exact hj
  have hj32 : j < U32 := by omega
  have hmod : ((j : Nat) : Int) % ((U32 : Nat) : Int) = ((j : Nat) : Int) :=
    Int.emod_eq_of_lt (by exact_mod_cast Nat.zero_le j) (by exact_mod_cast hj32)
  have hrd := entriesOf_readBytes (entryPairs 0 0 (recsOf b vs))
    (List.replicate (c.segment.maxIndexBytes - entWidth * vs.length) 0) j hjlen
  have hpair := entryPairs_getElem 0 0 (recsOf b vs) j (by rw [recsOf_length]; exact hj)
  simp only [Nat.zero_add] at hpair
  have hposle : (framesOf ((recsOf b vs).take j)).length < U64 := by
    have h1 := framesOf_take_le (recsOf b vs) j
    rw [framesOf_recsOf_length] at h1
    omega
  simp only [Index.read, segOf_index]
  rw [if_neg (show ¬ (entWidth * vs.length = 0) by rw [entWidth_eq]; omega)]
  rw [if_neg (show ¬ ((j : Nat) : Int) = -1 by omega)]
  rw [hmod, Int.toNat_natCast]
  rw [if_neg (show ¬ (entWidth * vs.length < j * entWidth + entWidth) by
    rw [entWidth_eq]; omega)]
  rw [show j * entWidth = entWidth * j by ring]
  rw [hrd.1, Option.some_bind, hrd.2, Option.some_bind]
  rw [hpair]
  rw [beVal_beBytes_of_lt 4 j (by rw [two_pow_32_eq]; exact hj32)]
  rw [beVal_beBytes_of_lt 8 _ (by rw [two_pow_64_eq]; exact hposle)]

theorem segOf_read (c : Config) (b : Nat) (vs : List (List Nat)) (j : Nat)
    (hj : j < vs.length) (h32 : vs.length ≤ U32)
    (hU : b + vs.length < U64) (hfr : framesLen vs < U64) :
    Segment.read (segOf c b vs) (b + j) = some ⟨b + j, vs.get ⟨j, hj⟩⟩ := by
  have hj32 : j < U32 := by omega
  have hsub : u64sub (b + j) b = j := u64sub_add b j (by omega)
  have hto : toInt64 j = (j : Int) := toInt64_small j (by unfold U32 at hj32; omega)
  have hjr : j < (recsOf b vs).length := by rw [recsOf_length]; exact hj
  have hget := recsOf_getElem b vs j hj
  have hlen : (marshalRecord ((recsOf b vs).get ⟨j, hjr⟩)).length < U64 := by
    rw [hget, marshalRecord_length]
    have hv : ({ offset := b + j, value := vs.get ⟨j, hj⟩ } : Record).value =
      vs.get ⟨j, hj⟩ := rfl
    rw [hv]
    have := framesLen_get_le vs j hj
    omega
  have hfrd := framesOf_read (recsOf b vs) [] j hjr hlen ((framesOf (recsOf b vs)).length)
  rw [List.append_nil] at hfrd
  simp only [Segment.read, segOf_base]
  rw [hsub, hto, segOf_index_read c b vs j hj h32 hfr]
  simp only [Option.some_bind]
  rw [segOf_store]
  rw [hfrd]
  simp only [Option.some_bind]
  rw [hget]
  rw [unmarshal_marshal ⟨b + j, vs.get ⟨j, hj⟩⟩ (by show b + j < U64; omega)]

theorem segOf_isMaxed_false (c : Config) (b : Nat) (vs : List (List Nat))
    (hfit : entWidth * (vs.length + 1) ≤ c.segment.maxIndexBytes) :
    (segOf c b vs).index.isMaxed = false := by
  rw [Nat.mul_succ] at hfit
  rw [Index.isMaxed]
  rw [segOf_mmap_length c b vs (by omega)]
  have hsz : (segOf c b vs).index.size = entWidth * vs.length := rfl
  rw [hsz]
  exact decide_eq_false (by omega)

theorem segOf_index_write (c : Config) (b : Nat) (vs : List (List Nat)) (v0 : List Nat)
    (hfit : entWidth * (vs.length + 1) ≤ c.segment.maxIndexBytes) :
    Index.write (segOf c b vs).index vs.length ((framesOf (recsOf b vs)).length) =
      some ⟨entriesOf (entryPairs 0 0 (recsOf b (vs ++ [v0]))) ++
          List.replicate (c.segment.maxIndexBytes - entWidth * (vs ++ [v0]).length) 0,
        entWidth * (vs ++ [v0]).length⟩ := by
  have hlenE := segOf_entries_length b vs
  rw [Index.write, segOf_isMaxed_false c b vs hfit]
  rw [if_neg (by simp)]
  have hm : (segOf c b vs).index.mmap = entriesOf (entryPairs 0 0 (recsOf b vs)) ++
      List.replicate (c.segment.maxIndexBytes - entWidth * vs.length) 0 := rfl
  have hsz : (segOf c b vs).index.size = entWidth * vs.length := rfl
  have hch : (beBytes 4 vs.length ++ beBytes 8 (framesOf (recsOf b vs)).length).length =
      entWidth := by
    simp [beBytes_length, entWidth_eq]
  have happ : (vs ++ [v0]).length = vs.length + 1 := by simp
  congr 1
  rw [Index.mk.injEq]
  constructor
  · -- the mmap bytes
    rw [hm, hsz, ← hlenE, writeBytes_at_end, hch, List.drop_replicate]
    rw [recsOf_append]
    rw [show recsOf (b + vs.length) [v0] = [⟨b + vs.length, v0⟩] from rfl]
    rw [entryPairs_append_single, entriesOf_append, recsOf_length]
    rw [happ, hlenE]
    simp only [Nat.zero_add, entriesOf, List.append_nil]
    rw [Nat.mul_succ]
    rw [show c.segment.maxIndexBytes - entWidth * vs.length - entWidth =
      c.segment.maxIndexBytes - (entWidth * vs.length + entWidth) by omega]
  · -- the size
    rw [hsz, happ, Nat.mul_succ]

theorem segOf_append (c : Config) (b : Nat) (vs : List (List Nat)) (rec0 : Record)
    (hfit : entWidth * (vs.length + 1) ≤ c.segment.maxIndexBytes)
    (h32 : vs.length < U32)
    (hU : b + vs.length + 1 < U64) :
    Segment.append (segOf c b vs) rec0 =
      (segOf c b (vs ++ [rec0.value]),
        { offset := b + vs.length, value := rec0.value }, some (b + vs.length)) := by
  obtain ⟨o0, v0⟩ := rec0
  have hb : b + vs.length < U64 := by omega
  have hsub : u64sub (b + vs.length) b % U32 = vs.length := by
    rw [u64sub_add b vs.length hb]
    exact Nat.mod_eq_of_lt h32
  have hwrite := segOf_index_write c b vs v0 hfit
  simp only [Segment.append, segOf_next, segOf_base, segOf_store, Store.append]
  rw [hsub, hwrite]
  simp only []
  rw [Prod.mk.injEq, Prod.mk.injEq]
  refine ⟨?_, rfl, rfl⟩
  rw [Segment.mk.injEq]
  refine ⟨?_, rfl, rfl, ?_, rfl⟩
  · -- the store
    rw [segOf_store, Store.mk.injEq]
    constructor
    · rw [recsOf_append, framesOf_append]
      simp only [framesOf, frameOf, List.append_nil, List.append_assoc]
    · rw [recsOf_append, framesOf_append]
      simp only [List.length_append, framesOf, frameOf, List.append_nil]
      simp only [List.length_append, beBytes_length]
      ring
  · -- the next offset
    rw [segOf_next]
    rw [Nat.mod_eq_of_lt (show b + vs.length + 1 < U64 from hU)]
    simp only [List.length_append, List.length_singleton]
    ring

theorem segOf_reopen (c : Config) (b : Nat) (vs : List (List Nat))
    (hfit : entWidth * vs.length ≤ c.segment.maxIndexBytes)
    (h32 : vs.length ≤ U32)
    (hU : b + vs.length < U64) :
    newSegment (Segment.closeFiles (segOf c b vs)) b c = segOf c b vs := by
  have hlenE := segOf_entries_length b vs
  have hclose : Segment.closeFiles (segOf c b vs) =
      ⟨framesOf (recsOf b vs), entriesOf (entryPairs 0 0 (recsOf b vs))⟩ := by
    rw [Segment.closeFiles, SegFiles.mk.injEq]
    refine ⟨rfl, ?_⟩
    have hsz : (segOf c b vs).index.size = entWidth * vs.length := rfl
    rw [hsz, segOf_index]
    simp only []
    rw [← hlenE, List.take_left]
  have hidx : newIndex (entriesOf (entryPairs 0 0 (recsOf b vs))) c = (segOf c b vs).index := by
    rw [newIndex, segOf_index, Index.mk.injEq]
    refine ⟨?_, hlenE⟩
    rw [List.take_of_length_le (by rw [hlenE]; exact hfit), hlenE]
  rw [hclose, newSegment]
  simp only [hidx]
  rcases Nat.eq_zero_or_pos vs.length with h0 | hpos
  · -- empty segment: the index is empty, nextOffset = baseOffset
    have hvs : vs = [] := List.length_eq_zero.mp h0
    subst hvs
    rfl
  · -- non-empty segment: read the last entry
    have hread : Index.read (segOf c b vs).index (-1) =
        some (vs.length - 1,
          (framesOf ((recsOf b vs).take (vs.length - 1))).length % U64) := by
      have hjlen : vs.length - 1 < (entryPairs 0 0 (recsOf b vs)).length := by
        rw [entryPairs_length, recsOf_length]; omega
      have hrd := entriesOf_readBytes (entryPairs 0 0 (recsOf b vs))
        (List.replicate (c.segment.maxIndexBytes - entWidth * vs.length) 0)
        (vs.length - 1) hjlen
      have hpair := entryPairs_getElem 0 0 (recsOf b vs) (vs.length - 1)
        (by rw [recsOf_length]; omega)
      simp only [Nat.zero_add] at hpair
      simp only [Index.read, segOf_index]
      rw [if_neg (show ¬ (entWidth * vs.length = 0) by rw [entWidth_eq]; omega)]
      rw [if_pos trivial]
      rw [Nat.mul_div_cancel_left vs.length (show 0 < entWidth by rw [entWidth_eq]; omega)]
      rw [show vs.length + (U64 - 1) = (vs.length - 1) + U64 by unfold U64; omega]
      rw [Nat.add_mod_right]
      rw [Nat.mod_eq_of_lt (show vs.length - 1 < U64 by
        unfold U32 at h32; unfold U64; omega)]
      rw [Nat.mod_eq_of_lt (show vs.length - 1 < U32 by omega)]
      rw [if_neg (show ¬ (entWidth * vs.length < (vs.length - 1) * entWidth + entWidth) by
        rw [entWidth_eq]; omega)]
      rw [show (vs.length - 1) * entWidth = entWidth * (vs.length - 1) by ring]
      rw [hrd.1, Option.some_bind, hrd.2, Option.some_bind]
      rw [hpair]
      rw [beVal_beBytes_of_lt 4 _ (by rw [two_pow_32_eq]; omega)]
      rw [beVal_beBytes 8, two_pow_64_eq]
    rw [hread]
    show Segment.mk (newStore (framesOf (recsOf b vs))) (segOf c b vs).index b
      ((b + (vs.length - 1) + 1) % U64) c = segOf c b vs
    rw [show b + (vs.length - 1) + 1 = b + vs.length by omega]
    rw [Nat.mod_eq_of_lt hU]
    rfl

theorem logRead_of_find (lc : Config) (segs : List Segment) (off : Nat) (s : Segment)
    (hfind : segs.find?
      (fun s => decide (s.baseOffset ≤ off) && decide (off < s.nextOffset)) = some s) :
    Log.read ⟨lc, segs⟩ off =
      (match s.read off with
        | none => .error .eof
        | some r => .ok r) := by
  have hp := List.find?_some hfind
  simp only [Bool.and_eq_true, decide_eq_true_eq] at hp
  simp only [Log.read, hfind]
  rw [if_neg (by omega)]

theorem logRead_of_find_none (lc : Config) (segs : List Segment) (off : Nat)
    (hfind : segs.find?
      (fun s => decide (s.baseOffset ≤ off) && decide (off < s.nextOffset)) = none) :
    Log.read ⟨lc, segs⟩ off = .error (.offsetOutOfRange off) := by
  simp only [Log.read, hfind]

theorem SegsRep.nonnil {c : Config} {b : Nat} {vals : List (List Nat)} {segs : List Segment}
    (h : SegsRep c b vals segs) : segs ≠ [] := by
  cases h <;> simp

theorem SegsRep.mem_bounds {c : Config} {b : Nat} {vals : List (List Nat)}
    {segs : List Segment} (h : SegsRep c b vals segs) :
    ∀ s ∈ segs, b ≤ s.baseOffset ∧ s.baseOffset ≤ s.nextOffset ∧
      s.nextOffset ≤ b + vals.length := by
  induction h with
  | last b vs hfit =>
    intro s hs
    rw [List.mem_singleton] at hs
    subst hs
    simp [segOf_base, segOf_next]
  | cons b vs rest segs hne hfit htail ih =>
    intro s hs
    rcases List.mem_cons.mp hs with rfl | hs'
    · simp only [segOf_base, segOf_next, List.length_append]
      omega
    · have := ih s hs'
      simp only [List.length_append]
      omega

theorem SegsRep.head_base {c : Config} {b : Nat} {vals : List (List Nat)}
    {segs : List Segment} (h : SegsRep c b vals segs) :
    segs.head?.map (·.baseOffset) = some b := by
  cases h <;> simp [segOf_base]

theorem SegsRep.last_next {c : Config} {b : Nat} {vals : List (List Nat)}
    {segs : List Segment} (h : SegsRep c b vals segs) :
    ∃ s, segs.getLast? = some s ∧ s.nextOffset = b + vals.length := by
  induction h with
  | last b vs hfit => exact ⟨segOf c b vs, List.getLast?_singleton _, segOf_next c b vs⟩
  | cons b vs rest segs hne hfit htail ih =>
    obtain ⟨s, h1, h2⟩ := ih
    obtain ⟨s₁, t, rfl⟩ := List.exists_cons_of_ne_nil htail.nonnil
    refine ⟨s, ?_, ?_⟩
    · rw [List.getLast?_cons_cons]
      exact h1
    · rw [h2, List.length_append]
      omega

theorem SegsRep.len32 {c : Config} {vs : List (List Nat)}
    (hcap : c.segment.maxIndexBytes ≤ entWidth * U32)
    (hfit : entWidth * vs.length ≤ c.segment.maxIndexBytes) : vs.length ≤ U32 :=
  Nat.le_of_mul_le_mul_left (le_trans hfit hcap) (by rw [entWidth_eq]; omega)

theorem SegsRep.read_ok {c : Config} {b : Nat} {vals : List (List Nat)}
    {segs : List Segment} (h : SegsRep c b vals segs)
    (hcap : c.segment.maxIndexBytes ≤ entWidth * U32) :
    b + vals.length < U64 → framesLen vals < U64 →
    ∀ (lc : Config) (j : Nat) (hj : j < vals.length),
      Log.read ⟨lc, segs⟩ (b + j) = .ok ⟨b + j, vals.get ⟨j, hj⟩⟩ ∧
      ∃ s, s ∈ segs ∧ s.baseOffset ≤ b + j ∧ b + j < s.nextOffset := by
  induction h with
  | last b vs hfit =>
    intro hU hfr lc j hj
    have h32 : vs.length ≤ U32 := SegsRep.len32 hcap hfit
    have hp : (decide ((segOf c b vs).baseOffset ≤ b + j) &&
        decide (b + j < (segOf c b vs).nextOffset)) = true := by
      simp only [segOf_base, segOf_next, Bool.and_eq_true, decide_eq_true_eq]
      omega
    have hfind := List.find?_cons_of_pos
      (p := fun s => decide (s.baseOffset ≤ b + j) && decide (b + j < s.nextOffset))
      (a := segOf c b vs) ([] : List Segment) hp
    constructor
    · rw [logRead_of_find lc _ _ _ hfind]
      rw [segOf_read c b vs j hj h32 hU hfr]
    · exact ⟨segOf c b vs, by simp [segOf_base, segOf_next]; omega⟩
  | cons b vs rest segs hne hfit htail ih =>
    intro hU hfr lc j hj
    rw [List.length_append] at hU hj
    rw [framesLen_append] at hfr
    by_cases hjv : j < vs.length
    · have h32 : vs.length ≤ U32 := SegsRep.len32 hcap hfit
      have hp : (decide ((segOf c b vs).baseOffset ≤ b + j) &&
          decide (b + j < (segOf c b vs).nextOffset)) = true := by
        simp only [segOf_base, segOf_next, Bool.and_eq_true, decide_eq_true_eq]
        omega
      have hfind := List.find?_cons_of_pos
        (p := fun s => decide (s.baseOffset ≤ b + j) && decide (b + j < s.nextOffset))
        (a := segOf c b vs) segs hp
      constructor
      · rw [logRead_of_find lc _ _ _ hfind]
        rw [segOf_read c b vs j hjv h32 (by omega) (by omega)]
        have hget : (vs ++ rest).get ⟨j, by rw [List.length_append]; omega⟩ =
            vs.get ⟨j, hjv⟩ := List.get_append j hjv
        rw [hget]
      · exact ⟨segOf c b vs, by simp [segOf_base, segOf_next]; omega⟩
    · have ihj := ih (by omega) (by omega) lc (j - vs.length) (by omega)
      rw [show (b + vs.length) + (j - vs.length) = b + j by omega] at ihj
      obtain ⟨ihr, s, hsmem, hs1, hs2⟩ := ihj
      constructor
      · simp only [Log.read] at ihr ⊢
        rw [List.find?_cons_of_neg segs (by
          simp only [segOf_base, segOf_next, Bool.and_eq_true, decide_eq_true_eq]
          omega)]
        rw [ihr]
        have hget : (vs ++ rest).get ⟨j, by rw [List.length_append]; omega⟩ =
            rest.get ⟨j - vs.length, by omega⟩ := by
          rw [List.get_append_right] <;> omega
        rw [hget]
      · exact ⟨s, List.mem_cons_of_mem _ hsmem, hs1, hs2⟩

theorem SegsRep.read_out {c : Config} {b : Nat} {vals : List (List Nat)}
    {segs : List Segment} (h : SegsRep c b vals segs) (lc : Config) (off : Nat)
    (hoff : off < b ∨ b + vals.length ≤ off) :
    Log.read ⟨lc, segs⟩ off = .error (.offsetOutOfRange off) := by
  apply logRead_of_find_none
  apply List.find?_eq_none.mpr
  intro s hs
  have hb := h.mem_bounds s hs
  simp only [Bool.and_eq_true, decide_eq_true_eq, not_and]
  intro h1 h2
  omega

theorem Index.write_none_iff (i : Index) (o p : Nat) :
    i.write o p = none ↔ i.isMaxed = true := by
  by_cases h : i.isMaxed = true <;> simp [Index.write, h]

theorem Segment.append_fails (s : Segment) (r : Record) (h : s.index.isMaxed = true) :
    (s.append r).2.2 = none := by
  have hw := (Index.write_none_iff s.index (u64sub s.nextOffset s.baseOffset % U32)
    ((s.store.append (marshalRecord { r with offset := s.nextOffset })).2.1)).mpr h
  simp only [Segment.append, hw]

theorem Segment.append_none_iff (s : Segment) (r : Record) :
    (s.append r).2.2 = none ↔ s.index.isMaxed = true := by
  constructor
  · intro hc
    by_cases hm : s.index.isMaxed = true
    · exact hm
    · exfalso
      cases hw : s.index.write (u64sub s.nextOffset s.baseOffset % U32)
          ((s.store.append (marshalRecord { r with offset := s.nextOffset })).2.1) with
      | none => exact hm ((Index.write_none_iff _ _ _).mp hw)
      | some idx =>
        simp only [Segment.append, hw] at hc
        exact absurd hc (by simp)
  · exact Segment.append_fails s r

theorem append_config (l : Log) (r : Record) : (l.append r).1.config = l.config := by
  simp only [Log.append]
  cases h : l.segments.getLast? with
  | none => rfl
  | some act => by_cases hm : act.isMaxed = true <;> simp [hm]

theorem append_cons (c : Config) (x s₁ : Segment) (t : List Segment) (r : Record) :
    (Log.append ⟨c, x :: s₁ :: t⟩ r).1.segments =
      x :: (Log.append ⟨c, s₁ :: t⟩ r).1.segments ∧
    (Log.append ⟨c, x :: s₁ :: t⟩ r).2 = (Log.append ⟨c, s₁ :: t⟩ r).2 := by
  simp only [Log.append, List.getLast?_cons_cons]
  cases h : (s₁ :: t).getLast? with
  | none => exact ⟨rfl, rfl⟩
  | some act =>
    by_cases hm : act.isMaxed = true
    · simp [hm, List.cons_append]
    · simp [hm, List.dropLast_cons₂]

theorem fresh_index_maxed (c : Config) (b' : Nat)
    (hcap : c.segment.maxIndexBytes < entWidth) :
    (segOf c b' []).index.isMaxed = true := by
  rw [Index.isMaxed, segOf_mmap_length c b' [] (by simp)]
  have hsz : (segOf c b' []).index.size = entWidth * ([] : List (List Nat)).length := rfl
  rw [hsz]
  simp only [List.length_nil, Nat.mul_zero, Nat.zero_add]
  exact decide_eq_true hcap

theorem segOf_nil_isMaxed_false (c : Config) (b' : Nat)
    (hms : 1 ≤ c.segment.maxStoreBytes)
    (hcap : entWidth ≤ c.segment.maxIndexBytes) :
    (segOf c b' []).isMaxed = false := by
  rw [Segment.isMaxed]
  have h1 : (segOf c b' []).store.size = 0 := rfl
  have h2 : (segOf c b' []).index.size = 0 := rfl
  have h3 : (segOf c b' []).index.isMaxed = false := by
    rw [Index.isMaxed, segOf_mmap_length c b' [] (by simp), h2]
    exact decide_eq_false (by rw [entWidth_eq] at hcap ⊢; omega)
  rw [h1, h2, h3, segOf_config]
  simp only [Bool.or_false]
  rw [decide_eq_false (by omega), decide_eq_false (by rw [entWidth_eq] at hcap; omega)]
  rfl

theorem SegsRep.appendStep {c : Config} {b : Nat} {vals : List (List Nat)}
    {segs : List Segment} (h : SegsRep c b vals segs)
    (hms : 1 ≤ c.segment.maxStoreBytes)
    (hcap : c.segment.maxIndexBytes ≤ entWidth * U32) :
    ∀ (r : Record) (o : Nat), b + vals.length + 1 < U64 →
      (Log.append ⟨c, segs⟩ r).2.2 = some o →
      o = b + vals.length ∧
      SegsRep c b (vals ++ [r.value]) (Log.append ⟨c, segs⟩ r).1.segments ∧
      (∀ act, segs.getLast? = some act → act.isMaxed = true →
        (Log.append ⟨c, segs⟩ r).1.segments =
          segs ++ [segOf c (b + vals.length) [r.value]]) := by
  induction h with
  | last b vs hfit =>
    intro r o hU hres
    by_cases hmx : (segOf c b vs).isMaxed = true
    · -- the active segment is maxed: a new segment is created at highest + 1
      by_cases hc12 : c.segment.maxIndexBytes < entWidth
      · -- capacity below one entry: the fresh segment refuses, contradicting success
        exfalso
        have hL : (Log.append ⟨c, [segOf c b vs]⟩ r).2.2 = none := by
          simp only [Log.append, List.getLast?_singleton]
          rw [if_pos hmx, segOf_nil]
          exact Segment.append_fails _ r (fresh_index_maxed c _ hc12)
        rw [hL] at hres
        exact absurd hres (by simp)
      · push_neg at hc12
        have hvs : vs ≠ [] := by
          intro hv
          subst hv
          rw [segOf_nil_isMaxed_false c b hms hc12] at hmx
          exact absurd hmx (by simp)
        have hlen1 : 1 ≤ vs.length := List.length_pos.mpr hvs
        have hL : Log.append ⟨c, [segOf c b vs]⟩ r =
            (⟨c, [segOf c b vs, segOf c (b + vs.length) [r.value]]⟩,
              ⟨b + vs.length, r.value⟩, some (b + vs.length)) := by
          simp only [Log.append, List.getLast?_singleton]
          rw [if_pos hmx, segOf_next]
          rw [if_neg (show ¬ (b + vs.length = 0) by omega)]
          rw [show b + vs.length - 1 + 1 = b + vs.length by omega]
          rw [Nat.mod_eq_of_lt (show b + vs.length < U64 by omega)]
          rw [segOf_nil]
          rw [segOf_append c (b + vs.length) [] r
            (by simp only [List.length_nil, Nat.zero_add, Nat.mul_one]; exact hc12)
            (by simp only [List.length_nil]; unfold U32; omega)
            (by simp only [List.length_nil, Nat.add_zero]; omega)]
          rfl
        have h5 : some (b + vs.length) = some o := by rw [hL] at hres; exact hres
        refine ⟨(Option.some.inj h5).symm, ?_, ?_⟩
        · rw [hL]
          exact SegsRep.cons b vs [r.value] _ hvs hfit
            (SegsRep.last (b + vs.length) [r.value]
              (by simp only [List.length_singleton, Nat.mul_one]; exact hc12))
        · intro act hact hmact
          rw [hL]
          rfl
    · -- the active segment has room: append in place
      have hidxf : (segOf c b vs).index.isMaxed = false := by
        rw [Segment.isMaxed] at hmx
        rcases Bool.or_eq_false_iff.mp (Bool.not_eq_true _ |>.mp hmx) with ⟨-, h2⟩
        exact h2
      have hfit' : entWidth * (vs.length + 1) ≤ c.segment.maxIndexBytes := by
        rw [Index.isMaxed, segOf_mmap_length c b vs hfit] at hidxf
        have hsz : (segOf c b vs).index.size = entWidth * vs.length := rfl
        rw [hsz] at hidxf
        have := of_decide_eq_false hidxf
        rw [Nat.mul_succ]
        omega
      have h32 : vs.length < U32 := by
        have h2 : entWidth * (vs.length + 1) ≤ entWidth * U32 := le_trans hfit' hcap
        have h3 : vs.length + 1 ≤ U32 :=
          Nat.le_of_mul_le_mul_left h2 (by rw [entWidth_eq]; omega)
        omega
      have hL : Log.append ⟨c, [segOf c b vs]⟩ r =
          (⟨c, [segOf c b (vs ++ [r.value])]⟩,
            ⟨b + vs.length, r.value⟩, some (b + vs.length)) := by
        simp only [Log.append, List.getLast?_singleton]
        rw [if_neg hmx]
        rw [segOf_append c b vs r hfit' h32 hU]
        rfl
      have h5 : some (b + vs.length) = some o := by rw [hL] at hres; exact hres
      refine ⟨(Option.some.inj h5).symm, ?_, ?_⟩
      · rw [hL]
        exact SegsRep.last b (vs ++ [r.value]) (by
          rw [List.length_append, List.length_singleton]
          exact hfit')
      · intro act hact hmact
        rw [List.getLast?_singleton] at hact
        have heq := Option.some.inj hact
        subst heq
        exact absurd hmact hmx
  | cons b vs rest segs hne hfit htail ih =>
    intro r o hU hres
    obtain ⟨s₁, t, rfl⟩ := List.exists_cons_of_ne_nil htail.nonnil
    have hac := append_cons c (segOf c b vs) s₁ t r
    rw [hac.2] at hres
    rw [List.length_append] at hU
    obtain ⟨hoeq, hrep, hrot⟩ := ih r o (by omega) hres
    refine ⟨by rw [List.length_append]; omega, ?_, ?_⟩
    · rw [hac.1]
      rw [List.append_assoc]
      exact SegsRep.cons b vs (rest ++ [r.value]) _ hne hfit hrep
    · intro act hact hmact
      rw [List.getLast?_cons_cons] at hact
      have hteq := hrot act hact hmact
      rw [List.length_append, hac.1, hteq]
      rw [show b + (vs.length + rest.length) = b + vs.length + rest.length by omega]
      rfl

theorem defaultConfig_maxStore_pos (c : Config) :
    1 ≤ (defaultConfig c).segment.maxStoreBytes := by
  unfold defaultConfig
  by_cases h : c.segment.maxStoreBytes = 0 <;> simp [h] <;> omega

theorem defaultConfig_init (c : Config) :
    (defaultConfig c).segment.initialOffset = c.segment.initialOffset := rfl

theorem defaultConfig_idem (c : Config) : defaultConfig (defaultConfig c) = defaultConfig c := by
  unfold defaultConfig
  by_cases h1 : c.segment.maxStoreBytes = 0 <;> by_cases h2 : c.segment.maxIndexBytes = 0 <;>
    simp [h1, h2]

theorem newLog_nil (c : Config) :
    newLog [] c =
      ⟨defaultConfig c, [segOf (defaultConfig c) c.segment.initialOffset []]⟩ := by
  unfold newLog openLog
  rw [show sortPairs [] = [] from rfl]
  simp only [List.map_nil]
  rw [segOf_nil]
  rfl

theorem segsRep_appendAll (c : Config)
    (hms : 1 ≤ c.segment.maxStoreBytes)
    (hcap : c.segment.maxIndexBytes ≤ entWidth * U32) :
    ∀ (rs : List Record) (b : Nat) (vals : List (List Nat)) (segs : List Segment),
      SegsRep c b vals segs →
      b + vals.length + rs.length < U64 →
      (∀ x ∈ (Log.appendAll ⟨c, segs⟩ rs).2, x.isSome = true) →
      SegsRep c b (vals ++ rs.map (fun t => t.value))
          ((Log.appendAll ⟨c, segs⟩ rs).1).segments ∧
        ((Log.appendAll ⟨c, segs⟩ rs).1).config = c := by
  intro rs
  induction rs with
  | nil =>
    intro b vals segs h hU hok
    refine ⟨?_, rfl⟩
    rw [List.map_nil, List.append_nil]
    exact h
  | cons r rest ih =>
    intro b vals segs h hU hok
    rw [List.length_cons] at hU
    simp only [Log.appendAll] at hok ⊢
    have hok1 : (Log.append ⟨c, segs⟩ r).2.2.isSome = true := by
      apply hok
      exact List.mem_cons_self _ _
    obtain ⟨o, ho⟩ := Option.isSome_iff_exists.mp hok1
    obtain ⟨hoeq, hrep, -⟩ := h.appendStep hms hcap r o (by omega) ho
    rcases hL : (Log.append ⟨c, segs⟩ r).1 with ⟨cc, segs'⟩
    have hcc : cc = c := by
      have h2 := append_config ⟨c, segs⟩ r
      rw [hL] at h2
      exact h2
    subst hcc
    rw [hL] at hrep hok
    have ihres := ih b (vals ++ [r.value]) segs' hrep
      (by rw [List.length_append, List.length_singleton]; omega)
      (fun x hx => hok x (List.mem_cons_of_mem _ hx))
    rw [List.map_cons]
    rw [show vals ++ r.value :: rest.map (fun t => t.value) =
      (vals ++ [r.value]) ++ rest.map (fun t => t.value) by
        rw [List.append_assoc, List.singleton_append]]
    exact ihres

theorem insertPair_lt (x : Nat × SegFiles) (ys : List (Nat × SegFiles))
    (h : ∀ y ∈ ys, x.1 < y.1) : insertPair x ys = x :: ys := by
  cases ys with
  | nil => rfl
  | cons y ys => rw [insertPair, if_pos (h y (List.mem_cons_self _ _))]

theorem sortPairs_of_pairwise (l : List (Nat × SegFiles))
    (h : l.Pairwise (fun a b => a.1 < b.1)) : sortPairs l = l := by
  induction l with
  | nil => rfl
  | cons x xs ih =>
    rw [List.pairwise_cons] at h
    rw [sortPairs, ih h.2, insertPair_lt x xs h.1]

theorem SegsRep.closePairwise {c : Config} {b : Nat} {vals : List (List Nat)}
    {segs : List Segment} (h : SegsRep c b vals segs) :
    (segs.map fun s => (s.baseOffset, s.closeFiles)).Pairwise (fun a d => a.1 < d.1) := by
  induction h with
  | last b vs hfit => simp
  | cons b vs rest segs hne hfit htail ih =>
    rw [List.map_cons, List.pairwise_cons]
    refine ⟨?_, ih⟩
    intro y hy
    obtain ⟨s, hs, rfl⟩ := List.mem_map.mp hy
    have hb := htail.mem_bounds s hs
    have hlen : 1 ≤ vs.length := List.length_pos.mpr hne
    simp only [segOf_base]
    omega

theorem SegsRep.reopen_map {c : Config} {b : Nat} {vals : List (List Nat)}
    {segs : List Segment} (h : SegsRep c b vals segs)
    (hcap : c.segment.maxIndexBytes ≤ entWidth * U32) :
    b + vals.length < U64 →
    ((segs.map fun s => (s.baseOffset, s.closeFiles)).map
      fun bf => newSegment bf.2 bf.1 c) = segs := by
  induction h with
  | last b vs hfit =>
    intro hU
    simp only [List.map_cons, List.map_nil, segOf_base]
    rw [segOf_reopen c b vs hfit (SegsRep.len32 hcap hfit) hU]
  | cons b vs rest segs hne hfit htail ih =>
    intro hU
    rw [List.length_append] at hU
    simp only [List.map_cons, segOf_base]
    rw [segOf_reopen c b vs hfit (SegsRep.len32 hcap hfit) (by omega)]
    rw [ih (by omega)]

theorem SegsRep.reopen {c : Config} {b : Nat} {vals : List (List Nat)}
    {segs : List Segment} (h : SegsRep c b vals segs)
    (hcap : c.segment.maxIndexBytes ≤ entWidth * U32)
    (hU : b + vals.length < U64) :
    openLog (segs.map fun s => (s.baseOffset, s.closeFiles)) c = ⟨c, segs⟩ := by
  unfold openLog
  rw [sortPairs_of_pairwise _ h.closePairwise]
  rw [h.reopen_map hcap hU]
  obtain ⟨s₁, t, rfl⟩ := List.exists_cons_of_ne_nil h.nonnil
  rfl

theorem SegsRep.read_dichotomy {c : Config} {b : Nat} {vals : List (List Nat)}
    {segs : List Segment} (h : SegsRep c b vals segs)
    (hcap : c.segment.maxIndexBytes ≤ entWidth * U32)
    (hU : b + vals.length < U64) (hfr : framesLen vals < U64) (lc : Config) (o : Nat) :
    Log.read ⟨lc, segs⟩ o = .error (.offsetOutOfRange o) ∨
    (∃ s, s ∈ segs ∧ s.baseOffset ≤ o ∧ o < s.nextOffset ∧
      ∃ rec, Log.read ⟨lc, segs⟩ o = .ok rec ∧ rec.offset = o) := by
  by_cases ho : b ≤ o ∧ o < b + vals.length
  · right
    obtain ⟨hrd, s, hsm, hs1, hs2⟩ :=
      h.read_ok hcap hU hfr lc (o - b) (by omega)
    rw [show b + (o - b) = o by omega] at hrd hs1 hs2
    exact ⟨s, hsm, hs1, hs2, ⟨o, vals.get ⟨o - b, by omega⟩⟩, hrd, rfl⟩
  · left
    exact h.read_out lc o (by omega)

theorem SegsRep.truncate_read {c : Config} {b : Nat} {vals : List (List Nat)}
    {segs : List Segment} (h : SegsRep c b vals segs)
    (hcap : c.segment.maxIndexBytes ≤ entWidth * U32) :
    b + vals.length < U64 → framesLen vals < U64 →
    ∀ (m : Nat) (lc : Config) (o : Nat),
      Log.read ⟨lc, segs.filter fun s => decide (m < s.nextOffset)⟩ o =
        .error (.offsetOutOfRange o) ∨
      (∃ s, s ∈ segs.filter (fun s => decide (m < s.nextOffset)) ∧
        s.baseOffset ≤ o ∧ o < s.nextOffset ∧
        ∃ rec, Log.read ⟨lc, segs.filter fun s => decide (m < s.nextOffset)⟩ o = .ok rec ∧
          rec.offset = o) := by
  induction h with
  | last b vs hfit =>
    intro hU hfr m lc o
    by_cases hx : m < b + vs.length
    · have hfl : [segOf c b vs].filter (fun s => decide (m < s.nextOffset)) =
          [segOf c b vs] := by
        apply List.filter_eq_self.mpr
        intro s hs
        rw [List.mem_singleton] at hs
        subst hs
        rw [segOf_next]
        exact decide_eq_true hx
      rw [hfl]
      exact (SegsRep.last b vs hfit).read_dichotomy hcap hU hfr lc o
    · have hfl : [segOf c b vs].filter (fun s => decide (m < s.nextOffset)) = [] := by
        rw [List.filter_cons, segOf_next]
        rw [if_neg (by simpa using hx)]
        rfl
      rw [hfl]
      left
      apply logRead_of_find_none
      rfl
  | cons b vs rest segs hne hfit htail ih =>
    intro hU hfr m lc o
    rw [List.length_append] at hU
    rw [framesLen_append] at hfr
    by_cases hx : m < b + vs.length
    · have hall : ∀ s ∈ segs, decide (m < s.nextOffset) = true := by
        intro s hs
        have hb := htail.mem_bounds s hs
        exact decide_eq_true (by omega)
      have hfl : (segOf c b vs :: segs).filter (fun s => decide (m < s.nextOffset)) =
          segOf c b vs :: segs := by
        rw [List.filter_cons, segOf_next, if_pos (by simpa using hx)]
        rw [List.filter_eq_self.mpr hall]
      rw [hfl]
      exact (SegsRep.cons b vs rest segs hne hfit htail).read_dichotomy hcap
        (by rw [List.length_append]; omega) (by rw [framesLen_append]; omega) lc o
    · have hfl : (segOf c b vs :: segs).filter (fun s => decide (m < s.nextOffset)) =
          segs.filter fun s => decide (m < s.nextOffset) := by
        rw [List.filter_cons, segOf_next, if_neg (by simpa using hx)]
      rw [hfl]
      exact ih (by omega) (by omega) m lc o

theorem Segment.append_record (s : Segment) (r : Record) :
    (s.append r).2.1 = { r with offset := s.nextOffset } := by
  simp only [Segment.append]
  cases hw : s.index.write (u64sub s.nextOffset s.baseOffset % U32)
    ((s.store.append (marshalRecord { r with offset := s.nextOffset })).2.1) <;> rfl

theorem Segment.append_some (s : Segment) (r : Record) (o : Nat)
    (h : (s.append r).2.2 = some o) : o = s.nextOffset := by
  simp only [Segment.append] at h
  cases hw : s.index.write (u64sub s.nextOffset s.baseOffset % U32)
      ((s.store.append (marshalRecord { r with offset := s.nextOffset })).2.1) with
  | none =>
    rw [hw] at h
    exact absurd h (by simp)
  | some idx =>
    rw [hw] at h
    exact (Option.some.inj h).symm

theorem newSegment_config (files : SegFiles) (b : Nat) (c : Config) :
    (newSegment files b c).config = c := rfl

theorem openLog_config (dir : List (Nat × SegFiles)) (c : Config) :
    (openLog dir c).config = c := by
  unfold openLog
  cases hc : (sortPairs dir).map fun bf => newSegment bf.2 bf.1 c <;> rfl

theorem segOf_index_read_cases (c : Config) (b : Nat) (vs : List (List Nat)) (input : Int)
    (h32 : vs.length ≤ U32) :
    Index.read (segOf c b vs).index input = none ∨
    ∃ j, j < vs.length ∧ Index.read (segOf c b vs).index input =
      some (j, (framesOf ((recsOf b vs).take j)).length % U64) := by
  simp only [Index.read]
  by_cases h0 : (segOf c b vs).index.size = 0
  · rw [if_pos h0]
    exact Or.inl rfl
  · rw [if_neg h0]
    set out : Nat := (if input = -1 then
        ((segOf c b vs).index.size / entWidth + (U64 - 1)) % U64 % U32
      else (input % ((U32 : Nat) : Int)).toNat) with hout
    have hlt : out < U32 := by
      rw [hout]
      split
      · exact Nat.mod_lt _ (by unfold U32; omega)
      · have hpos : (0 : Int) < ((U32 : Nat) : Int) := by
          exact_mod_cast (show (0 : Nat) < U32 by unfold U32; omega)
        have h1 := Int.emod_nonneg input (ne_of_gt hpos)
        have h2 := Int.emod_lt_of_pos input hpos
        omega
    by_cases hpos2 : (segOf c b vs).index.size < out * entWidth + entWidth
    · rw [if_pos hpos2]
      exact Or.inl rfl
    · rw [if_neg hpos2]
      have hsz : (segOf c b vs).index.size = entWidth * vs.length := rfl
      have hjlt : out < vs.length := by
        rw [hsz] at hpos2
        rw [entWidth_eq] at hpos2
        omega
      right
      refine ⟨out, hjlt, ?_⟩
      have hjlen : out < (entryPairs 0 0 (recsOf b vs)).length := by
        rw [entryPairs_length, recsOf_length]
        exact hjlt
      have hrd := entriesOf_readBytes (entryPairs 0 0 (recsOf b vs))
        (List.replicate (c.segment.maxIndexBytes - entWidth * vs.length) 0) out hjlen
      have hpair := entryPairs_getElem 0 0 (recsOf b vs) out (by
        rw [recsOf_length]
        exact hjlt)
      simp only [Nat.zero_add] at hpair
      have hm : (segOf c b vs).index.mmap = entriesOf (entryPairs 0 0 (recsOf b vs)) ++
          List.replicate (c.segment.maxIndexBytes - entWidth * vs.length) 0 := rfl
      rw [hm]
      rw [show out * entWidth = entWidth * out by ring]
      rw [hrd.1, Option.some_bind, hrd.2, Option.some_bind, hpair]
      rw [beVal_beBytes_of_lt 4 _ (by rw [two_pow_32_eq]; omega)]
      rw [beVal_beBytes 8, two_pow_64_eq]

/-- Reading a segment whose index is a clean `segOf` index is insensitive to
bytes appended to the store past the framed records: every index entry points
inside the original framed region. -/
theorem segOf_read_store_ext (c : Config) (b : Nat) (vs : List (List Nat)) (ext : List Nat)
    (sz : Nat) (h32 : vs.length ≤ U32) (hfr : framesLen vs < U64) (off : Nat) :
    Segment.read ⟨⟨framesOf (recsOf b vs) ++ ext, sz⟩, (segOf c b vs).index, b,
        (segOf c b vs).nextOffset, c⟩ off =
      Segment.read (segOf c b vs) off := by
  simp only [Segment.read, segOf_base]
  rcases segOf_index_read_cases c b vs (toInt64 (u64sub off b)) h32 with hnone | ⟨j, hj, hsome⟩
  · rw [hnone]
    rfl
  · rw [hsome]
    simp only [Option.some_bind]
    have hjr : j < (recsOf b vs).length := by rw [recsOf_length]; exact hj
    have hlen : (marshalRecord ((recsOf b vs).get ⟨j, hjr⟩)).length < U64 := by
      have h1 := framesLen_get_le vs j hj
      have h2 := recsOf_getElem b vs j hj
      rw [h2, marshalRecord_length]
      show 8 + (vs.get ⟨j, hj⟩).length < U64
      omega
    have hpos : (framesOf ((recsOf b vs).take j)).length % U64 =
        (framesOf ((recsOf b vs).take j)).length := by
      apply Nat.mod_eq_of_lt
      have := framesOf_take_le (recsOf b vs) j
      rw [framesOf_recsOf_length] at this
      omega
    rw [hpos]
    have hrd1 := framesOf_read (recsOf b vs) ext j hjr hlen sz
    have hrd2 := framesOf_read (recsOf b vs) [] j hjr hlen ((framesOf (recsOf b vs)).length)
    rw [List.append_nil] at hrd2
    rw [segOf_store]
    rw [hrd1, hrd2]

set_option maxRecDepth 16384

/-- C9: a successful `Log.Append` mutates the caller's record in place, setting its
offset field to the assigned offset (the value returned) while leaving the value
field unchanged. -/
theorem c9_append_mutates_record (l : Log) (r : Record) (o : Nat)
    (hres : (l.append r).2.2 = some o) :
    (l.append r).2.1.offset = o ∧ (l.append r).2.1.value = r.value := by
  cases hgl : l.segments.getLast? with
  | none =>
    simp [Log.append, hgl] at hres
  | some act =>
    simp only [Log.append, hgl] at hres ⊢
    by_cases hm : act.isMaxed = true
    · rw [if_pos hm] at hres ⊢
      have h1 := Segment.append_record
        (newSegment ⟨[], []⟩ (((if act.nextOffset = 0 then 0 else act.nextOffset - 1) + 1)
          % U64) l.config) r
      have h2 := Segment.append_some _ r o hres
      rw [h1, h2]
      exact ⟨rfl, rfl⟩
    · rw [if_neg hm] at hres ⊢
      have h1 := Segment.append_record act r
      have h2 := Segment.append_some act r o hres
      rw [h1, h2]
      exact ⟨rfl, rfl⟩

/-- C9 (witness): instantiating `c9_append_mutates_record` on a fresh log and one
concrete record. -/
theorem c9_append_mutates_record_witness :
    ((newLog [] ⟨⟨1024, 1024, 0⟩⟩).append ⟨5, [9, 9]⟩).2.2 = some 0 ∧
    ((newLog [] ⟨⟨1024, 1024, 0⟩⟩).append ⟨5, [9, 9]⟩).2.1.offset = 0 ∧
    ((newLog [] ⟨⟨1024, 1024, 0⟩⟩).append ⟨5, [9, 9]⟩).2.1.value = [9, 9] :=
  ⟨by decide, c9_append_mutates_record (newLog [] ⟨⟨1024, 1024, 0⟩⟩) ⟨5, [9, 9]⟩ 0 (by decide)⟩

/-- C10: `NewLog` substitutes 1024 for a zero `Segment.MaxStoreBytes` or
`Segment.MaxIndexBytes`, keeps non-zero values and the `InitialOffset` as given,
and every segment is created only after the substitution (each carries the
defaulted config). -/
theorem c10_default_config (dir : List (Nat × SegFiles)) (c : Config) :
    (newLog dir c).config.segment.maxStoreBytes =
      (if c.segment.maxStoreBytes = 0 then 1024 else c.segment.maxStoreBytes) ∧
    (newLog dir c).config.segment.maxIndexBytes =
      (if c.segment.maxIndexBytes = 0 then 1024 else c.segment.maxIndexBytes) ∧
    (newLog dir c).config.segment.initialOffset = c.segment.initialOffset ∧
    ∀ s ∈ (newLog dir c).segments, s.config = defaultConfig c := by
  have hconf : (newLog dir c).config = defaultConfig c := openLog_config _ _
  refine ⟨by rw [hconf]; rfl, by rw [hconf]; rfl, by rw [hconf]; rfl, ?_⟩
  intro s hs
  unfold newLog openLog at hs
  rcases hms : (sortPairs dir).map fun bf => newSegment bf.2 bf.1 (defaultConfig c) with
    - | ⟨s₁, t⟩
  · rw [hms] at hs
    simp only [List.mem_singleton] at hs
    subst hs
    rfl
  · rw [hms] at hs
    simp only [] at hs
    have : s ∈ (sortPairs dir).map fun bf => newSegment bf.2 bf.1 (defaultConfig c) := by
      rw [hms]
      exact hs
    obtain ⟨bf, hbf, rfl⟩ := List.mem_map.mp this
    rfl

/-- C10 (witness): instantiating `c10_default_config` on a concrete directory and
config with both capacities zero. -/
theorem c10_default_config_witness :
    (newLog [] ⟨⟨0, 0, 3⟩⟩).config.segment.maxStoreBytes = (if (0 : Nat) = 0 then 1024 else 0) ∧
    ∀ s ∈ (newLog [] ⟨⟨0, 0, 3⟩⟩).segments, s.config = defaultConfig ⟨⟨0, 0, 3⟩⟩ :=
  ⟨(c10_default_config [] ⟨⟨0, 0, 3⟩⟩).1, (c10_default_config [] ⟨⟨0, 0, 3⟩⟩).2.2.2⟩

/-- C3: `Log.Read(off)` fails with `offset_out_of_range(off)` exactly when no segment
satisfies `baseOffset ≤ off < nextOffset`; otherwise it delegates to the first such
segment (the source's second range re-check being dead code); and on a fresh log
with no appends, `Read 1` returns `offset_out_of_range(1)`. -/
theorem c3_read_out_of_range (c : Config) (l : Log) (off : Nat) :
    (l.read off = .error (.offsetOutOfRange off) ↔
      ∀ s ∈ l.segments, ¬(s.baseOffset ≤ off ∧ off < s.nextOffset)) ∧
    (l.read off =
      match l.segments.find?
          (fun s => decide (s.baseOffset ≤ off) && decide (off < s.nextOffset)) with
        | none => .error (.offsetOutOfRange off)
        | some s =>
          match s.read off with
          | none => .error .eof
          | some rec => .ok rec) ∧
    (newLog [] c).read 1 = .error (.offsetOutOfRange 1) := by
  refine ⟨?_, ?_, ?_⟩
  · cases hf : l.segments.find?
        (fun s => decide (s.baseOffset ≤ off) && decide (off < s.nextOffset)) with
    | none =>
      simp only [Log.read, hf]
      simp only [true_iff]
      have := List.find?_eq_none.mp hf
      intro s hs hcon
      have h2 := this s hs
      simp only [Bool.and_eq_true, decide_eq_true_eq] at h2
      exact h2 ⟨hcon.1, hcon.2⟩
    | some s =>
      have hp := List.find?_some hf
      simp only [Bool.and_eq_true, decide_eq_true_eq] at hp
      have hmem := List.mem_of_find?_eq_some hf
      constructor
      · intro hcon
        simp only [Log.read, hf] at hcon
        rw [if_neg (by omega)] at hcon
        cases hsr : s.read off with
        | none => rw [hsr] at hcon; exact absurd hcon (by simp)
        | some rec => rw [hsr] at hcon; exact absurd hcon (by simp)
      · intro hall
        exact absurd ⟨hp.1, hp.2⟩ (hall s hmem)
  · cases hf : l.segments.find?
        (fun s => decide (s.baseOffset ≤ off) && decide (off < s.nextOffset)) with
    | none => simp only [Log.read, hf]
    | some s =>
      have hp := List.find?_some hf
      simp only [Bool.and_eq_true, decide_eq_true_eq] at hp
      simp only [Log.read, hf]
      rw [if_neg (by omega)]
  · rw [newLog_nil]
    apply logRead_of_find_none
    rw [List.find?_cons_of_neg _ (by
      simp only [segOf_base, segOf_next, Bool.and_eq_true, decide_eq_true_eq,
        List.length_nil, Nat.add_zero]
      omega)]
    rfl

/-- C8 (counterexample): a fresh log created with `InitialOffset = 16` holds no
records, yet `HighestOffset` returns 15 rather than the 0 the claim's
empty-log clause demands: the code returns 0 only when the last segment's
`nextOffset` is literally 0, not whenever no records were appended. -/
theorem c8_counterexample :
    (newLog [] ⟨⟨1024, 1024, 16⟩⟩).highestOffset? = some 15 ∧
    (newLog [] ⟨⟨1024, 1024, 16⟩⟩).highestOffset? ≠ some 0 := by
  constructor
  · decide
  · decide

/-- C8 (amended): for every reachable log state holding the values `vals` from
base `b`, `LowestOffset` returns the first segment's `baseOffset` (= `b`) and
`HighestOffset` returns the last segment's `nextOffset − 1` (= `b + |vals| − 1`),
except that it returns 0 when that `nextOffset` is itself 0 — not whenever the
log holds no records. -/
theorem c8_offsets (c : Config) (b : Nat) (vals : List (List Nat)) (segs : List Segment)
    (h : SegsRep c b vals segs) :
    Log.lowestOffset? ⟨c, segs⟩ = some b ∧
    Log.highestOffset? ⟨c, segs⟩ =
      some (if b + vals.length = 0 then 0 else b + vals.length - 1) := by
  constructor
  · exact h.head_base
  · obtain ⟨s, hgl, hnext⟩ := h.last_next
    simp only [Log.highestOffset?, hgl]
    rw [hnext]

/-- C8 (witness): instantiating `c8_offsets` on the one-empty-segment state at
base 16. -/
theorem c8_offsets_witness :
    Log.lowestOffset? ⟨⟨⟨1024, 1024, 16⟩⟩, [segOf ⟨⟨1024, 1024, 16⟩⟩ 16 []]⟩ = some 16 ∧
    Log.highestOffset? ⟨⟨⟨1024, 1024, 16⟩⟩, [segOf ⟨⟨1024, 1024, 16⟩⟩ 16 []]⟩ =
      some (if 16 + ([] : List (List Nat)).length = 0 then 0
            else 16 + ([] : List (List Nat)).length - 1) :=
  c8_offsets ⟨⟨1024, 1024, 16⟩⟩ 16 [] _ (SegsRep.last 16 [] (by decide))

/-- C5 (counterexample): with `MaxStoreBytes = 1`, a segment becomes maxed after
one append (store size 17 ≥ 1), yet the next append still succeeds, returning
offset 1: `IsMaxed` is not equivalent to "the next append would fail". -/
theorem c5_counterexample :
    ((newSegment ⟨[], []⟩ 0 ⟨⟨1, 1024, 0⟩⟩).append ⟨0, [1]⟩).1.isMaxed = true ∧
    (((newSegment ⟨[], []⟩ 0 ⟨⟨1, 1024, 0⟩⟩).append ⟨0, [1]⟩).1.append ⟨0, [2]⟩).2.2 =
      some 1 := by
  constructor
  · decide
  · decide

/-- C5 (amended): `segment.Append` refuses for capacity reasons exactly when the
index cannot fit another entry (a full store never blocks an append), and once
the active segment of a reachable log is maxed, the next successful `Log.Append`
assigns offset `highest + 1 = b + |vals|` and rotates: the new segments list is
the old one extended with a fresh segment based at `b + |vals|` holding exactly
the new record. -/
theorem c5_maxed_rotation (c : Config) (b : Nat) (vals : List (List Nat))
    (segs : List Segment) (act : Segment) (r : Record) (o : Nat)
    (h : SegsRep c b vals segs) (hms : 1 ≤ c.segment.maxStoreBytes)
    (hcap : c.segment.maxIndexBytes ≤ entWidth * U32) (hU : b + vals.length + 1 < U64)
    (hgl : segs.getLast? = some act) (hmx : act.isMaxed = true)
    (hres : (Log.append ⟨c, segs⟩ r).2.2 = some o) :
    (∀ (s : Segment) (rec : Record), ((s.append rec).2.2 = none ↔ s.index.isMaxed = true)) ∧
    o = b + vals.length ∧
    (Log.append ⟨c, segs⟩ r).1.segments = segs ++ [segOf c (b + vals.length) [r.value]] := by
  obtain ⟨ho, hrep, hrot⟩ := h.appendStep hms hcap r o hU hres
  exact ⟨fun s rec => Segment.append_none_iff s rec, ho, hrot act hgl hmx⟩

/-- C5 (witness): instantiating `c5_maxed_rotation` on a log whose single
segment (index capacity one entry) is maxed; the next append succeeds at offset
1 and rotates. -/
theorem c5_maxed_rotation_witness :
    (∀ (s : Segment) (rec : Record), ((s.append rec).2.2 = none ↔ s.index.isMaxed = true)) ∧
    (1 : Nat) = 0 + [[1]].length ∧
    (Log.append ⟨⟨⟨1024, 12, 0⟩⟩, [segOf ⟨⟨1024, 12, 0⟩⟩ 0 [[1]]]⟩ ⟨0, [2]⟩).1.segments =
      [segOf ⟨⟨1024, 12, 0⟩⟩ 0 [[1]]] ++ [segOf ⟨⟨1024, 12, 0⟩⟩ (0 + [[1]].length) [[2]]] :=
  c5_maxed_rotation ⟨⟨1024, 12, 0⟩⟩ 0 [[1]] [segOf ⟨⟨1024, 12, 0⟩⟩ 0 [[1]]]
    (segOf ⟨⟨1024, 12, 0⟩⟩ 0 [[1]]) ⟨0, [2]⟩ 1
    (SegsRep.last 0 [[1]] (by decide)) (by decide) (by decide) (by decide)
    rfl (by decide) (by decide)

/-- C6 (counterexample): with index capacity one entry, the second append fails
(index full) but is not atomic on the store: the store size grows from 17 to 34,
keeping the serialized record as garbage bytes. -/
theorem c6_counterexample :
    (((newSegment ⟨[], []⟩ 0 ⟨⟨1024, 12, 0⟩⟩).append ⟨0, [1]⟩).1.append ⟨0, [2]⟩).2.2 =
      none ∧
    ((newSegment ⟨[], []⟩ 0 ⟨⟨1024, 12, 0⟩⟩).append ⟨0, [1]⟩).1.store.size = 17 ∧
    (((newSegment ⟨[], []⟩ 0 ⟨⟨1024, 12, 0⟩⟩).append ⟨0, [1]⟩).1.append ⟨0, [2]⟩).1.store.size =
      34 := by
  refine ⟨?_, ?_, ?_⟩
  · decide
  · decide
  · decide

/-- C6 (amended): when `segment.Append` fails because the index is full, the
error is returned, `nextOffset` and the index are unchanged, and every
subsequent read returns exactly what it returned before — but the store is NOT
unchanged: its size grows by the full frame (length prefix plus serialized
record), the bytes remaining as garbage. -/
theorem c6_append_index_full (c : Config) (b : Nat) (vs : List (List Nat)) (r : Record)
    (hmax : (segOf c b vs).index.isMaxed = true)
    (h32 : vs.length ≤ U32) (hfr : framesLen vs < U64) :
    ((segOf c b vs).append r).2.2 = none ∧
    ((segOf c b vs).append r).1.nextOffset = (segOf c b vs).nextOffset ∧
    ((segOf c b vs).append r).1.index = (segOf c b vs).index ∧
    (∀ off, ((segOf c b vs).append r).1.read off = (segOf c b vs).read off) ∧
    ((segOf c b vs).append r).1.store.size =
      (segOf c b vs).store.size + lenWidth +
        (marshalRecord { r with offset := (segOf c b vs).nextOffset }).length := by
  have hw : Index.write (segOf c b vs).index
      (u64sub (segOf c b vs).nextOffset (segOf c b vs).baseOffset % U32)
      (((segOf c b vs).store.append (marshalRecord
        { r with offset := (segOf c b vs).nextOffset })).2.1) = none :=
    (Index.write_none_iff _ _ _).mpr hmax
  have hL : (segOf c b vs).append r =
      (⟨((segOf c b vs).store.append
          (marshalRecord { r with offset := (segOf c b vs).nextOffset })).2.2,
        (segOf c b vs).index, (segOf c b vs).baseOffset, (segOf c b vs).nextOffset, c⟩,
        { r with offset := (segOf c b vs).nextOffset }, none) := by
    simp only [Segment.append, hw]
    rfl
  refine ⟨?_, ?_, ?_, ?_, ?_⟩
  · rw [hL]
  · rw [hL]
  · rw [hL]
  · intro off
    rw [hL]
    have hst : ((segOf c b vs).store.append
        (marshalRecord { r with offset := (segOf c b vs).nextOffset })).2.2 =
        ⟨framesOf (recsOf b vs) ++
          (beBytes lenWidth
            (marshalRecord { r with offset := (segOf c b vs).nextOffset }).length ++
            marshalRecord { r with offset := (segOf c b vs).nextOffset }),
          (framesOf (recsOf b vs)).length + lenWidth +
            (marshalRecord { r with offset := (segOf c b vs).nextOffset }).length⟩ := by
      simp only [Store.append, segOf_store]
      rw [List.append_assoc]
    rw [hst, segOf_base]
    exact segOf_read_store_ext c b vs _ _ h32 hfr off
  · rw [hL]
    rfl

/-- C6 (witness): instantiating `c6_append_index_full` on a one-record segment
whose one-entry index is full. -/
theorem c6_append_index_full_witness :
    (segOf ⟨⟨1024, 12, 0⟩⟩ 0 [[1]]).index.isMaxed = true ∧
    (((segOf ⟨⟨1024, 12, 0⟩⟩ 0 [[1]]).append ⟨0, [2]⟩).2.2 = none ∧
      ((segOf ⟨⟨1024, 12, 0⟩⟩ 0 [[1]]).append ⟨0, [2]⟩).1.nextOffset =
        (segOf ⟨⟨1024, 12, 0⟩⟩ 0 [[1]]).nextOffset ∧
      ((segOf ⟨⟨1024, 12, 0⟩⟩ 0 [[1]]).append ⟨0, [2]⟩).1.index =
        (segOf ⟨⟨1024, 12, 0⟩⟩ 0 [[1]]).index ∧
      (∀ off, ((segOf ⟨⟨1024, 12, 0⟩⟩ 0 [[1]]).append ⟨0, [2]⟩).1.read off =
        (segOf ⟨⟨1024, 12, 0⟩⟩ 0 [[1]]).read off) ∧
      ((segOf ⟨⟨1024, 12, 0⟩⟩ 0 [[1]]).append ⟨0, [2]⟩).1.store.size =
        (segOf ⟨⟨1024, 12, 0⟩⟩ 0 [[1]]).store.size + lenWidth +
          (marshalRecord
            { offset := ((segOf ⟨⟨1024, 12, 0⟩⟩ 0 [[1]]).nextOffset), value := [2] }).length) :=
  ⟨by decide,
    c6_append_index_full ⟨⟨1024, 12, 0⟩⟩ 0 [[1]] ⟨0, [2]⟩ (by decide) (by decide) (by decide)⟩

/-- C7 (counterexample): slot selection truncates the input to `uint32`: on an
index holding exactly one entry, `Read(2^32)` does not signal end-of-stream but
returns the entry in slot 0, although slot `2^32` is far outside the occupied
range. -/
theorem c7_counterexample :
    Index.read ⟨List.replicate 24 0, 12⟩ (4294967296 : Int) = some (0, 0) ∧
    Index.read ⟨List.replicate 24 0, 12⟩ (4294967296 : Int) ≠ none := by
  constructor
  · decide
  · decide

/-- C7 (amended): for a non-negative input `i`, `index.Read(i)` signals
end-of-stream exactly when the index is empty or the slot `uint32(i)` — the
input truncated to 32 bits, not `i` itself — is outside the occupied range;
`Read(-1)` on a non-empty index returns the entry in the last occupied slot;
`index.Write` fails with end-of-stream exactly when no 12-byte entry fits,
and otherwise writes the 4-byte offset and 8-byte position at offset `size`
and advances `size` by 12. -/
theorem c7_index_ops (i : Index) (off pos : Nat) (input : Int)
    (hin : 0 ≤ input) (hlen : i.size ≤ i.mmap.length) :
    (i.read input = none ↔
      i.size = 0 ∨ i.size < (input % (U32 : Int)).toNat * entWidth + entWidth) ∧
    (i.size ≠ 0 → i.size % entWidth = 0 → i.size / entWidth < U32 →
      i.read (-1) = i.entryAt (i.size / entWidth - 1)) ∧
    (i.write off pos = none ↔ i.mmap.length < i.size + entWidth) ∧
    (∀ i', i.write off pos = some i' →
      i'.size = i.size + entWidth ∧
      i'.mmap = writeBytes i.mmap i.size (beBytes 4 off ++ beBytes 8 pos)) := by
  have hne : ¬(input = -1) := by
    intro h
    rw [h] at hin
    norm_num at hin
  refine ⟨?_, ?_, ?_, ?_⟩
  · simp only [Index.read]
    by_cases h0 : i.size = 0
    · rw [if_pos h0]
      simp [h0]
    · rw [if_neg h0, if_neg hne]
      by_cases hb : i.size < (input % (U32 : Int)).toNat * entWidth + entWidth
      · rw [if_pos hb]
        simp [h0, hb]
      · rw [if_neg hb]
        have hb' : (input % (U32 : Int)).toNat * entWidth + entWidth ≤ i.size :=
          Nat.le_of_not_lt hb
        have h4 : (input % (U32 : Int)).toNat * entWidth + 4 ≤ i.mmap.length := by
          rw [entWidth_eq] at hb' ⊢
          omega
        have h8 : (input % (U32 : Int)).toNat * entWidth + 4 + 8 ≤ i.mmap.length := by
          rw [entWidth_eq] at hb' ⊢
          omega
        simp only [readBytes, if_pos h4, if_pos h8, Option.some_bind]
        simp [h0, hb]
  · intro h0 hmod h32
    simp only [Index.read, if_neg h0]
    rw [if_pos trivial]
    have hq : 1 ≤ i.size / entWidth := by
      rw [entWidth_eq] at hmod ⊢
      omega
    have hout : ((i.size / entWidth + (U64 - 1)) % U64) % U32 = i.size / entWidth - 1 := by
      have hUpos : 1 ≤ U64 := by unfold U64; omega
      have h1 : i.size / entWidth + (U64 - 1) = (i.size / entWidth - 1) + U64 := by omega
      rw [h1, Nat.add_mod_right]
      have hlt64 : i.size / entWidth - 1 < U64 := by
        have : U32 < U64 := by unfold U32 U64; omega
        omega
      rw [Nat.mod_eq_of_lt hlt64]
      exact Nat.mod_eq_of_lt (by omega)
    rw [hout]
    have hchk : ¬(i.size < (i.size / entWidth - 1) * entWidth + entWidth) := by
      rw [entWidth_eq] at hmod hq ⊢
      omega
    rw [if_neg hchk]
    rfl
  · constructor
    · intro hn
      have := (Index.write_none_iff i off pos).mp hn
      simpa [Index.isMaxed] using this
    · intro hlt
      exact (Index.write_none_iff i off pos).mpr (by simpa [Index.isMaxed] using hlt)
  · intro i' hw
    simp only [Index.write] at hw
    by_cases hm : i.isMaxed = true
    · rw [if_pos hm] at hw
      exact absurd hw (by simp)
    · rw [if_neg hm] at hw
      have := Option.some.inj hw
      subst this
      exact ⟨rfl, rfl⟩

/-- C7 (witness): instantiating `c7_index_ops` on a one-entry index with input
`2^32`, offset 1 and position 2. -/
theorem c7_index_ops_witness :
    (0 : Int) ≤ 4294967296 ∧
    (⟨List.replicate 24 0, 12⟩ : Index).size ≤ (⟨List.replicate 24 0, 12⟩ : Index).mmap.length ∧
    ((Index.read ⟨List.replicate 24 0, 12⟩ 4294967296 = none ↔
        (⟨List.replicate 24 0, 12⟩ : Index).size = 0 ∨
        (⟨List.replicate 24 0, 12⟩ : Index).size <
          ((4294967296 : Int) % (U32 : Int)).toNat * entWidth + entWidth) ∧
      ((⟨List.replicate 24 0, 12⟩ : Index).size ≠ 0 →
        (⟨List.replicate 24 0, 12⟩ : Index).size % entWidth = 0 →
        (⟨List.replicate 24 0, 12⟩ : Index).size / entWidth < U32 →
        Index.read ⟨List.replicate 24 0, 12⟩ (-1) =
          Index.entryAt ⟨List.replicate 24 0, 12⟩
            ((⟨List.replicate 24 0, 12⟩ : Index).size / entWidth - 1)) ∧
      (Index.write ⟨List.replicate 24 0, 12⟩ 1 2 = none ↔
        (⟨List.replicate 24 0, 12⟩ : Index).mmap.length <
          (⟨List.replicate 24 0, 12⟩ : Index).size + entWidth) ∧
      (∀ i', Index.write ⟨List.replicate 24 0, 12⟩ 1 2 = some i' →
        i'.size = (⟨List.replicate 24 0, 12⟩ : Index).size + entWidth ∧
        i'.mmap = writeBytes (⟨List.replicate 24 0, 12⟩ : Index).mmap
          (⟨List.replicate 24 0, 12⟩ : Index).size (beBytes 4 1 ++ beBytes 8 2))) :=
  ⟨by decide, by decide,
    c7_index_ops ⟨List.replicate 24 0, 12⟩ 1 2 4294967296 (by decide) (by decide)⟩

/-- C1 (counterexample): with `InitialOffset = 2^64 − 1`, the first append
succeeds and returns offset `2^64 − 1`, but reading that very offset fails with
`offset_out_of_range`: `nextOffset` wraps to 0, emptying the segment's
half-open range. -/
theorem c1_counterexample :
    ((newLog [] ⟨⟨1024, 1024, U64 - 1⟩⟩).append ⟨0, [7]⟩).2.2 = some (U64 - 1) ∧
    ((newLog [] ⟨⟨1024, 1024, U64 - 1⟩⟩).append ⟨0, [7]⟩).1.read (U64 - 1) =
      .error (.offsetOutOfRange (U64 - 1)) := by
  constructor
  · decide
  · decide

/-- C1 (amended): for every record sequence appended in order to a fresh log,
all successfully, and provided the offsets do not wrap `uint64`
(`InitialOffset + |rs| < 2^64`, with the framed bytes also below `2^64` and the
defaulted index capacity at most `12 · 2^32`), reading `InitialOffset + j`
returns a record carrying that offset and the `j`-th appended value. -/
theorem c1_read_appended (c : Config) (rs : List Record) (j : Nat)
    (hcap : (defaultConfig c).segment.maxIndexBytes ≤ entWidth * U32)
    (hU : c.segment.initialOffset + rs.length < U64)
    (hfr : framesLen (rs.map (fun t => t.value)) < U64)
    (hok : ∀ x ∈ ((newLog [] c).appendAll rs).2, x.isSome = true)
    (hj : j < rs.length) :
    ((newLog [] c).appendAll rs).1.read (c.segment.initialOffset + j) =
      .ok ⟨c.segment.initialOffset + j,
        (rs.map (fun t => t.value)).get ⟨j, by rw [List.length_map]; exact hj⟩⟩ := by
  rw [newLog_nil] at hok ⊢
  have hms : 1 ≤ (defaultConfig c).segment.maxStoreBytes := defaultConfig_maxStore_pos c
  have hrep0 : SegsRep (defaultConfig c) c.segment.initialOffset []
      [segOf (defaultConfig c) c.segment.initialOffset []] :=
    SegsRep.last c.segment.initialOffset [] (by simp)
  obtain ⟨hrep, hconf⟩ := segsRep_appendAll (defaultConfig c) hms hcap rs
    c.segment.initialOffset [] _ hrep0 (by simpa using hU) hok
  have hj' : j < (([] : List (List Nat)) ++ rs.map (fun t => t.value)).length := by
    simpa using hj
  have hread := hrep.read_ok hcap
    (by simpa using hU) (by simpa using hfr)
    ((Log.appendAll ⟨defaultConfig c,
      [segOf (defaultConfig c) c.segment.initialOffset []]⟩ rs).1).config j hj'
  exact hread.1

/-- C1 (witness): instantiating `c1_read_appended` with two appended records on
a small config; the second read returns value `[6]` at offset 1. -/
theorem c1_read_appended_witness :
    (∀ x ∈ ((newLog [] ⟨⟨64, 64, 0⟩⟩).appendAll [⟨0, [5]⟩, ⟨0, [6]⟩]).2, x.isSome = true) ∧
    ((newLog [] ⟨⟨64, 64, 0⟩⟩).appendAll [⟨0, [5]⟩, ⟨0, [6]⟩]).1.read
        ((⟨⟨64, 64, 0⟩⟩ : Config).segment.initialOffset + 1) =
      .ok ⟨(⟨⟨64, 64, 0⟩⟩ : Config).segment.initialOffset + 1,
        (([⟨0, [5]⟩, ⟨0, [6]⟩] : List Record).map (fun t => t.value)).get
          ⟨1, by rw [List.length_map]; decide⟩⟩ :=
  ⟨by decide,
    c1_read_appended ⟨⟨64, 64, 0⟩⟩ [⟨0, [5]⟩, ⟨0, [6]⟩] 1
      (by decide) (by decide) (by decide) (by decide) (by decide)⟩

/-- C2: closing a reachable log and reopening the directory with the same
(already-defaulted) config rebuilds the identical log state, so `LowestOffset`,
`HighestOffset` and every `Read` are preserved across close/reopen. -/
theorem c2_reopen_preserves (c : Config) (b : Nat) (vals : List (List Nat))
    (segs : List Segment) (h : SegsRep c b vals segs) (hc : defaultConfig c = c)
    (hcap : c.segment.maxIndexBytes ≤ entWidth * U32) (hU : b + vals.length < U64) :
    newLog (Log.closeFiles ⟨c, segs⟩) c = ⟨c, segs⟩ ∧
    (newLog (Log.closeFiles ⟨c, segs⟩) c).lowestOffset? = Log.lowestOffset? ⟨c, segs⟩ ∧
    (newLog (Log.closeFiles ⟨c, segs⟩) c).highestOffset? = Log.highestOffset? ⟨c, segs⟩ ∧
    ∀ off, (newLog (Log.closeFiles ⟨c, segs⟩) c).read off = Log.read ⟨c, segs⟩ off := by
  have h1 : newLog (Log.closeFiles ⟨c, segs⟩) c = ⟨c, segs⟩ := by
    unfold newLog
    rw [hc]
    exact h.reopen hcap hU
  exact ⟨h1, by rw [h1], by rw [h1], fun off => by rw [h1]⟩

/-- C2 (witness): instantiating `c2_reopen_preserves` on a one-segment log
holding two records. -/
theorem c2_reopen_preserves_witness :
    defaultConfig ⟨⟨1024, 36, 0⟩⟩ = ⟨⟨1024, 36, 0⟩⟩ ∧
    (newLog (Log.closeFiles ⟨⟨⟨1024, 36, 0⟩⟩, [segOf ⟨⟨1024, 36, 0⟩⟩ 0 [[1], [2]]]⟩)
        ⟨⟨1024, 36, 0⟩⟩ =
      ⟨⟨⟨1024, 36, 0⟩⟩, [segOf ⟨⟨1024, 36, 0⟩⟩ 0 [[1], [2]]]⟩ ∧
    (newLog (Log.closeFiles ⟨⟨⟨1024, 36, 0⟩⟩, [segOf ⟨⟨1024, 36, 0⟩⟩ 0 [[1], [2]]]⟩)
        ⟨⟨1024, 36, 0⟩⟩).lowestOffset? =
      Log.lowestOffset? ⟨⟨⟨1024, 36, 0⟩⟩, [segOf ⟨⟨1024, 36, 0⟩⟩ 0 [[1], [2]]]⟩ ∧
    (newLog (Log.closeFiles ⟨⟨⟨1024, 36, 0⟩⟩, [segOf ⟨⟨1024, 36, 0⟩⟩ 0 [[1], [2]]]⟩)
        ⟨⟨1024, 36, 0⟩⟩).highestOffset? =
      Log.highestOffset? ⟨⟨⟨1024, 36, 0⟩⟩, [segOf ⟨⟨1024, 36, 0⟩⟩ 0 [[1], [2]]]⟩ ∧
    ∀ off, (newLog (Log.closeFiles ⟨⟨⟨1024, 36, 0⟩⟩, [segOf ⟨⟨1024, 36, 0⟩⟩ 0 [[1], [2]]]⟩)
        ⟨⟨1024, 36, 0⟩⟩).read off =
      Log.read ⟨⟨⟨1024, 36, 0⟩⟩, [segOf ⟨⟨1024, 36, 0⟩⟩ 0 [[1], [2]]]⟩ off) :=
  ⟨by decide,
    c2_reopen_preserves ⟨⟨1024, 36, 0⟩⟩ 0 [[1], [2]] [segOf ⟨⟨1024, 36, 0⟩⟩ 0 [[1], [2]]]
      (SegsRep.last 0 [[1], [2]] (by decide)) (by decide) (by decide) (by decide)⟩

/-- C4 (counterexample): `Truncate` compares against `lowest + 1` computed in
wrapping `uint64` arithmetic: at `lowest = 2^64 − 1` the threshold wraps to 0
and nothing is removed, although every segment satisfies
`nextOffset ≤ lowest + 1` and should have been removed per the claim. -/
theorem c4_counterexample :
    ((((newLog [] ⟨⟨1024, 1024, 0⟩⟩).append ⟨0, [1]⟩).1.truncate (U64 - 1)).segments =
      ((newLog [] ⟨⟨1024, 1024, 0⟩⟩).append ⟨0, [1]⟩).1.segments) ∧
    (∃ s ∈ (((newLog [] ⟨⟨1024, 1024, 0⟩⟩).append ⟨0, [1]⟩).1.truncate (U64 - 1)).segments,
      s.nextOffset ≤ (U64 - 1) + 1) := by
  constructor
  · decide
  · decide

/-- C4 (amended): provided `lowest + 1` does not wrap `uint64`, truncating a
reachable log removes exactly the segments with `nextOffset ≤ lowest + 1`: the
rest survive as a filter (hence in order), each with `nextOffset > lowest + 1`,
and any subsequent read either fails with `offset_out_of_range` or succeeds on
a retained segment containing the offset. -/
theorem c4_truncate (c : Config) (b : Nat) (vals : List (List Nat)) (segs : List Segment)
    (lowest : Nat) (h : SegsRep c b vals segs)
    (hcap : c.segment.maxIndexBytes ≤ entWidth * U32)
    (hU : b + vals.length < U64) (hfr : framesLen vals < U64) (hw : lowest + 1 < U64) :
    (Log.truncate ⟨c, segs⟩ lowest).segments =
      segs.filter (fun s => decide (lowest + 1 < s.nextOffset)) ∧
    (∀ s ∈ (Log.truncate ⟨c, segs⟩ lowest).segments, lowest + 1 < s.nextOffset) ∧
    (Log.truncate ⟨c, segs⟩ lowest).segments.Sublist segs ∧
    ∀ o, o ≤ lowest →
      (Log.truncate ⟨c, segs⟩ lowest).read o = .error (.offsetOutOfRange o) ∨
      (∃ s, s ∈ (Log.truncate ⟨c, segs⟩ lowest).segments ∧
        s.baseOffset ≤ o ∧ o < s.nextOffset ∧
        ∃ rec, (Log.truncate ⟨c, segs⟩ lowest).read o = .ok rec ∧ rec.offset = o) := by
  have hm : (lowest + 1) % U64 = lowest + 1 := Nat.mod_eq_of_lt hw
  have h2 : Log.truncate ⟨c, segs⟩ lowest =
      ⟨c, segs.filter fun s => decide (lowest + 1 < s.nextOffset)⟩ := by
    simp only [Log.truncate, hm]
  refine ⟨by rw [h2], ?_, ?_, ?_⟩
  · intro s hs
    rw [h2] at hs
    have := List.of_mem_filter hs
    simpa using this
  · rw [h2]
    exact List.filter_sublist segs
  · intro o _
    have hd := h.truncate_read hcap hU hfr (lowest + 1) c o
    rw [h2]
    exact hd

/-- C4 (witness): instantiating `c4_truncate` with `lowest = 0` on a one-segment
log holding two records. -/
theorem c4_truncate_witness :
    (0 : Nat) + 1 < U64 ∧
    ((Log.truncate ⟨⟨⟨1024, 36, 0⟩⟩, [segOf ⟨⟨1024, 36, 0⟩⟩ 0 [[1], [2]]]⟩ 0).segments =
      [segOf ⟨⟨1024, 36, 0⟩⟩ 0 [[1], [2]]].filter (fun s => decide (0 + 1 < s.nextOffset)) ∧
    (∀ s ∈ (Log.truncate ⟨⟨⟨1024, 36, 0⟩⟩, [segOf ⟨⟨1024, 36, 0⟩⟩ 0 [[1], [2]]]⟩ 0).segments,
      0 + 1 < s.nextOffset) ∧
    (Log.truncate ⟨⟨⟨1024, 36, 0⟩⟩,
      [segOf ⟨⟨1024, 36, 0⟩⟩ 0 [[1], [2]]]⟩ 0).segments.Sublist
        [segOf ⟨⟨1024, 36, 0⟩⟩ 0 [[1], [2]]] ∧
    ∀ o, o ≤ 0 →
      (Log.truncate ⟨⟨⟨1024, 36, 0⟩⟩, [segOf ⟨⟨1024, 36, 0⟩⟩ 0 [[1], [2]]]⟩ 0).read o =
        .error (.offsetOutOfRange o) ∨
      (∃ s, s ∈ (Log.truncate ⟨⟨⟨1024, 36, 0⟩⟩,
          [segOf ⟨⟨1024, 36, 0⟩⟩ 0 [[1], [2]]]⟩ 0).segments ∧
        s.baseOffset ≤ o ∧ o < s.nextOffset ∧
        ∃ rec, (Log.truncate ⟨⟨⟨1024, 36, 0⟩⟩,
          [segOf ⟨⟨1024, 36, 0⟩⟩ 0 [[1], [2]]]⟩ 0).read o = .ok rec ∧ rec.offset = o)) :=
  ⟨by decide,
    c4_truncate ⟨⟨1024, 36, 0⟩⟩ 0 [[1], [2]] [segOf ⟨⟨1024, 36, 0⟩⟩ 0 [[1], [2]]] 0
      (SegsRep.last 0 [[1], [2]] (by decide)) (by decide) (by decide) (by decide) (by decide)⟩

end Proglog
